import Mathlib

set_option maxHeartbeats 1000000

/-!
Shallow embedding of `src/main.py` (a personal finance ledger).

Strings are modelled as `List Char` (`Str`); Python `float` amounts are
modelled as exact rationals `ℚ` (every IEEE double is a dyadic and hence a
finite-decimal rational; 53-bit rounding itself is not modelled).  File
contents are modelled as a `Str`; a missing file is `Option.none`.
Python exceptions raised by `load_data` (IndexError from `split(': ')[1]`,
ValueError from `float(...)`, AttributeError from assigning to `None`)
are modelled by the `LoadErr` component of the result, together with the
records appended to `self.records` before the exception was raised.
-/

/-- Strings as explicit character lists. -/
abbrev Str := List Char

/-- Conversion from Lean string literals. -/
def toL (s : String) : Str := s.toList

/-- Python `str.strip()` whitespace class (ASCII part: space, \t, \n, \r, \v, \f). -/
def isSpaceC (c : Char) : Bool :=
  c == ' ' || c == '\t' || c == '\n' || c == '\r' || c == '\x0b' || c == '\x0c'

/-- Python `line.strip()`: drop leading and trailing whitespace. -/
def pyStrip (l : Str) : Str :=
  ((l.dropWhile isSpaceC).reverse.dropWhile isSpaceC).reverse

/-- Prepend a character to the first chunk of a split result. -/
def consHead (c : Char) : List Str → List Str
  | [] => [[c]]
  | h :: t => (c :: h) :: t

/-- Python `s.split(': ')`: split on every occurrence of the two-character
separator `": "`, scanning left to right. -/
def splitCS : Str → List Str
  | [] => [[]]
  | [c] => [[c]]
  | c :: d :: rest =>
    if c = ':' ∧ d = ' ' then [] :: splitCS rest
    else consHead c (splitCS (d :: rest))

/-- Whether the separator `": "` occurs somewhere in the string. -/
def hasCS : Str → Bool
  | [] => false
  | [_] => false
  | c :: d :: rest => (c == ':' && d == ' ') || hasCS (d :: rest)

/-- Split file contents on `'\n'`.  Python iterates a text file line by
line: each yielded line is a chunk of the content up to and including a
newline (universal-newline translation already applied), and every line is
immediately passed to `str.strip()`, which removes the trailing newline.
So `load_data`'s line loop is equivalent to mapping `pyStrip` over this
split; the sole difference is a final empty chunk when the content ends in
`'\n'`, which strips to the empty line and matches no label prefix. -/
def splitNL : Str → List Str
  | [] => [[]]
  | c :: rest => if c = '\n' then [] :: splitNL rest else consHead c (splitNL rest)

/-- The lines `load_data` iterates over (before stripping). -/
def linesOf (content : Str) : List Str := splitNL content

/-- Python `line.split(': ')[1]`: the element at index 1 of the full split,
i.e. the segment between the first and the second occurrence of `": "`
(`none` models the `IndexError` when `": "` does not occur). -/
def lineValue (line : Str) : Option Str := (splitCS line).get? 1

/-- Python `query in s`: contiguous-substring test. -/
def pyContains (q : Str) : Str → Bool
  | [] => q.isEmpty
  | c :: rest => q.isPrefixOf (c :: rest) || pyContains q rest

/-- Spec-side statement of "q is a contiguous substring of l". -/
def InfixOf (q l : Str) : Prop := ∃ a b : Str, l = a ++ q ++ b

/-- ASCII decimal digit test (`\d` of the CPython `_strptime` regexes,
restricted to ASCII; the non-ASCII Unicode digits Python would also accept
are outside the modelled input alphabet). -/
def isDigitC (c : Char) : Bool := '0' ≤ c && c ≤ '9'

/-- Numeric value of an ASCII digit character. -/
def digitVal (c : Char) : ℕ := c.toNat - 48

/-- Value of a big-endian ASCII digit string. -/
def digitsVal (l : Str) : ℕ := l.foldl (fun a c => 10 * a + digitVal c) 0

/-- The ASCII digit character for `d < 10`. -/
def digitChar10 (d : ℕ) : Char := Char.ofNat (48 + d)

/-- Big-endian decimal digits of `n`, with explicit fuel (the fuel `n`
itself always suffices) so that the definition is structural. -/
def natToDigitsAux : ℕ → ℕ → Str
  | 0, _ => []
  | fuel + 1, n => if n = 0 then [] else natToDigitsAux fuel (n / 10) ++ [digitChar10 (n % 10)]

/-- Big-endian decimal digit string of `n` (`"0"` for `0`). -/
def natToDigits (n : ℕ) : Str := if n = 0 then ['0'] else natToDigitsAux n n

/-- Split off a maximal leading run of ASCII digits. -/
def takeDigits (l : Str) : Str × Str := (l.takeWhile isDigitC, l.dropWhile isDigitC)

/-- Exponent part of a float literal: optional sign followed by a nonempty
digit run that must reach the end of the string. -/
def parseExp (l : Str) : Option ℤ :=
  let sgn : ℤ := if l.head? = some '-' then -1 else 1
  let r := if l.head? = some '-' ∨ l.head? = some '+' then l.tail else l
  if r.isEmpty then none else if r.all isDigitC then some (sgn * (digitsVal r : ℤ)) else none

/-- Python `float(s)` on finite decimal literals: surrounding whitespace is
stripped, then an optional sign, an integer digit run, an optional `'.'`
with a fractional digit run (at least one digit in total), and an optional
exponent.  `none` models the `ValueError` on any other input.  (The
`inf`/`nan` words, digit-group underscores and non-ASCII digits Python also
accepts denote values or inputs outside the modelled domain.) -/
def pyFloat (s : Str) : Option ℚ :=
  let t := pyStrip s
  let sign : ℚ := if t.head? = some '-' then -1 else 1
  let t1 := if t.head? = some '-' ∨ t.head? = some '+' then t.tail else t
  let p := takeDigits t1
  let a := p.1
  let q2 := if p.2.head? = some '.' then takeDigits p.2.tail else ([], p.2)
  let b := q2.1
  let t3 := q2.2
  if a.isEmpty && b.isEmpty then none
  else
    let base : ℚ := (digitsVal a : ℚ) + (digitsVal b : ℚ) / (10 : ℚ) ^ b.length
    match t3 with
    | [] => some (sign * base)
    | c :: r =>
      if c = 'e' ∨ c = 'E' then (parseExp r).map (fun e => sign * base * (10 : ℚ) ^ e)
      else none

/-- Drop trailing `'0'` characters, keeping at least one digit. -/
def stripTrailingZeros (l : Str) : Str :=
  let r := l.reverse.dropWhile (fun c => c == '0')
  if r.isEmpty then ['0'] else r.reverse

/-- Whether `q` has a finite decimal expansion (denominator divides a power
of ten).  Every value of a Python `float` amount satisfies this, since
doubles are dyadic rationals. -/
def hasDecDen (q : ℚ) : Bool := 10 ^ q.den % q.den == 0

/-- The decimal digit string of `|q| * 10^den`, left-padded with zeros so
that at least one digit sits before the decimal point of `pyFloatStr`. -/
def floatDigits (q : ℚ) : Str :=
  let k := q.den
  let ds0 := natToDigits (q.num.natAbs * 10 ^ k / k)
  if ds0.length < k + 1 then List.replicate (k + 1 - ds0.length) '0' ++ ds0 else ds0

/-- Python `str(x)` for a float-valued `x`: sign, integer digits, `'.'`,
and the shortest fraction digits (trailing zeros stripped, at least one
fraction digit, so integers render as `"100.0"`).  For values whose
denominator is not a power of ten (impossible for a double) an arbitrary
fraction rendering is produced; the claims never reach that branch.
(Python switches to exponent notation for magnitudes outside
[1e-4, 1e16); the claims stay inside it.) -/
def pyFloatStr (q : ℚ) : Str :=
  let signStr : Str := if q < 0 then ['-'] else []
  let k := q.den
  if 10 ^ k % k = 0 then
    let ds := floatDigits q
    signStr ++ ds.take (ds.length - k) ++ '.' :: stripTrailingZeros (ds.drop (ds.length - k))
  else
    signStr ++ natToDigits q.num.natAbs ++ '/' :: natToDigits q.den

/-- One ledger entry, mirroring `class Record` (`date`, `category`,
`amount`, `description`).  The Python constructor default `amount = 0`
used by `load_data` is the integer `0`; it is modelled as the rational
`0` (the int/float distinction only shows for a block with no `Сумма:`
line, which no claim exercises). -/
structure Record where
  date : Str
  category : Str
  amount : ℚ
  description : Str
  deriving DecidableEq

/-- The exceptions `load_data` can raise (it catches only
`FileNotFoundError`): `IndexError` from `split(': ')[1]`, `ValueError` from
`float(...)`, `AttributeError` from field assignment on `None`. -/
inductive LoadErr where
  | indexErr : LoadErr
  | valueErr : LoadErr
  | attrErr : LoadErr
  deriving DecidableEq

/-- `'Дата:'` — the prefix that starts a new record block. -/
def dateLabel : Str := toL "Дата:"

/-- `'Категория:'` — category line prefix. -/
def catLabel : Str := toL "Категория:"

/-- `'Сумма:'` — amount line prefix. -/
def sumLabel : Str := toL "Сумма:"

/-- `'Описание:'` — description line prefix. -/
def descLabel : Str := toL "Описание:"

/-- The line loop of `FinanceTracker.load_data`: processes each raw line
(stripping it first), carrying the in-progress `record` (Python's local
`record`, `none` before the first date line) and the records appended so
far to `self.records`.  Returns the final `self.records` contents and the
exception, if one was raised.  Evaluation order inside a branch follows
Python: on a date line the in-progress record is appended before
`split(': ')[1]` can raise; on the other lines the right-hand side
(`split`, then `float` for amounts) is evaluated before the assignment to
`record` can raise `AttributeError`. -/
def load_lines : List Str → Option Record → List Record → List Record × Option LoadErr
  | [], cur, acc => (acc ++ cur.toList, none)
  | l :: rest, cur, acc =>
    let line := pyStrip l
    if dateLabel.isPrefixOf line then
      let acc1 := acc ++ cur.toList
      match lineValue line with
      | none => (acc1, some LoadErr.indexErr)
      | some v => load_lines rest (some ⟨v, [], 0, []⟩) acc1
    else if catLabel.isPrefixOf line then
      match lineValue line with
      | none => (acc, some LoadErr.indexErr)
      | some v =>
        match cur with
        | none => (acc, some LoadErr.attrErr)
        | some r => load_lines rest (some { r with category := v }) acc
    else if sumLabel.isPrefixOf line then
      match lineValue line with
      | none => (acc, some LoadErr.indexErr)
      | some v =>
        match pyFloat v with
        | none => (acc, some LoadErr.valueErr)
        | some a =>
          match cur with
          | none => (acc, some LoadErr.attrErr)
          | some r => load_lines rest (some { r with amount := a }) acc
    else if descLabel.isPrefixOf line then
      match lineValue line with
      | none => (acc, some LoadErr.indexErr)
      | some v =>
        match cur with
        | none => (acc, some LoadErr.attrErr)
        | some r => load_lines rest (some { r with description := v }) acc
    else load_lines rest cur acc

/-- `FinanceTracker.load_data` applied to existing file contents. -/
def load_data (content : Str) : List Record × Option LoadErr :=
  load_lines (linesOf content) none []

/-- `load_data` including the `FileNotFoundError` handler: a missing file
(`none`) is not an error and loads nothing. -/
def load_file (dataFile : Option Str) : List Record × Option LoadErr :=
  match dataFile with
  | none => ([], none)
  | some content => load_data content

/-- The five writes `save_data` performs per record: four labelled lines
and one blank separator line. -/
def recordLines (r : Record) : List Str :=
  [toL "Дата: " ++ r.date,
   toL "Категория: " ++ r.category,
   toL "Сумма: " ++ pyFloatStr r.amount,
   toL "Описание: " ++ r.description,
   []]

/-- The full file text `FinanceTracker.save_data` writes: every record in
list order, each line terminated by `'\n'`. -/
def renderRecords (records : List Record) : Str :=
  (records.map (fun r => ((recordLines r).map (fun l => l ++ ['\n'])).flatten)).flatten

/-- `FinanceTracker` state: the in-memory `records` list and the persisted
file contents (`none` = the file does not exist). -/
structure Tracker where
  records : List Record
  dataFile : Option Str
  deriving DecidableEq

/-- `FinanceTracker.save_data`: full-file rewrite of the backing store. -/
def save_data (t : Tracker) : Tracker :=
  { t with dataFile := some (renderRecords t.records) }

/-- `FinanceTracker.__init__`: start with empty `records`, then
`load_data` from the file (missing file tolerated).  The second component
is the exception `load_data` propagates, if any. -/
def initTracker (dataFile : Option Str) : Tracker × Option LoadErr :=
  (⟨(load_file dataFile).1, dataFile⟩, (load_file dataFile).2)

/-- `FinanceTracker.add_record`: append, then persist. -/
def add_record (t : Tracker) (date category : Str) (amount : ℚ) (description : Str) : Tracker :=
  save_data { t with records := t.records ++ [⟨date, category, amount, description⟩] }

/-- `FinanceTracker.edit_record`: index guard (`index < 0 or index >=
len(records)` → print an error and return, touching nothing), otherwise
wholesale replacement at `index` followed by `save_data`. -/
def edit_record (t : Tracker) (index : ℤ) (date category : Str) (amount : ℚ)
    (description : Str) : Tracker :=
  if index < 0 ∨ (t.records.length : ℤ) ≤ index then t
  else save_data { t with records := t.records.set index.toNat ⟨date, category, amount, description⟩ }

/-- `FinanceTracker.delete_record`: same guard, otherwise `del` at `index`
followed by `save_data`. -/
def delete_record (t : Tracker) (index : ℤ) : Tracker :=
  if index < 0 ∨ (t.records.length : ℤ) ≤ index then t
  else save_data { t with records := t.records.eraseIdx index.toNat }

/-- `FinanceTracker.search_records`: linear scan in index order; a record
matches when `query in record.date or query in record.category or
str(record.amount) == query`.  The printed output is modelled as the list
of matching `(index, record)` pairs. -/
def search_records (records : List Record) (query : Str) : List (ℕ × Record) :=
  records.enum.filter fun p =>
    pyContains query p.2.date || pyContains query p.2.category || pyFloatStr p.2.amount == query

/-- `FinanceTracker.show_balance`: total income, total expense, and their
difference (the code prints balance, income, expense; modelled as the
triple (income, expense, balance)). -/
def show_balance (records : List Record) : ℚ × ℚ × ℚ :=
  let income := ((records.filter fun r => r.category == toL "Доход").map Record.amount).sum
  let expense := ((records.filter fun r => r.category == toL "Расход").map Record.amount).sum
  (income, expense, income - expense)

/-- The `%m` alternation `1[0-2]|0[1-9]|[1-9]` of CPython's `_strptime`
regex for `datetime.strptime(s, "%Y-%m-%d")`, applied at the current
position; returns the month value and the remaining characters.  (Regex
backtracking from a two-digit alternative to `[1-9]` can never produce an
overall match here, because the character after a one-digit month would
have to be `'-'` but is a digit, so committing to the first matching
alternative is faithful.) -/
def parseMonth : Str → Option (ℕ × Str)
  | [] => none
  | c :: rest =>
    if c = '1' then
      match rest with
      | [] => some (1, [])
      | d :: rest2 => if '0' ≤ d ∧ d ≤ '2' then some (10 + digitVal d, rest2) else some (1, rest)
    else if c = '0' then
      match rest with
      | [] => none
      | d :: rest2 => if '1' ≤ d ∧ d ≤ '9' then some (digitVal d, rest2) else none
    else if '2' ≤ c ∧ c ≤ '9' then some (digitVal c, rest)
    else none

/-- The `%d` alternation `3[01]|[12]\d|0[1-9]|[1-9]` of the same regex
(committing to the first matching alternative, which is faithful because
the pattern ends after `%d` and the engine then checks that the match
consumed the whole string). -/
def parseDay : Str → Option (ℕ × Str)
  | [] => none
  | c :: rest =>
    if c = '3' then
      match rest with
      | [] => some (3, [])
      | d :: rest2 => if d = '0' ∨ d = '1' then some (30 + digitVal d, rest2) else some (3, rest)
    else if c = '1' ∨ c = '2' then
      match rest with
      | [] => some (digitVal c, [])
      | d :: rest2 =>
        if '0' ≤ d ∧ d ≤ '9' then some (10 * digitVal c + digitVal d, rest2)
        else some (digitVal c, rest)
    else if c = '0' then
      match rest with
      | [] => none
      | d :: rest2 => if '1' ≤ d ∧ d ≤ '9' then some (digitVal d, rest2) else none
    else if '4' ≤ c ∧ c ≤ '9' then some (digitVal c, rest)
    else none

/-- Gregorian leap-year rule used by `datetime`. -/
def isLeap (y : ℕ) : Bool := y % 4 == 0 && (y % 100 != 0 || y % 400 == 0)

/-- Days in a month, as validated by the `datetime` constructor. -/
def daysInMonth (y m : ℕ) : ℕ :=
  if m = 2 then (if isLeap y then 29 else 28)
  else if m = 4 ∨ m = 6 ∨ m = 9 ∨ m = 11 then 30
  else 31

/-- `FinanceTracker.is_valid_date`: `datetime.strptime(s, "%Y-%m-%d")`
succeeds (returning `True`) or raises `ValueError` (returning `False`).
`%Y` is exactly four digits; after the regex match must consume the whole
string, the `datetime` constructor checks `1 <= year` (`MINYEAR`) and that
the day exists in the month. -/
def is_valid_date (s : Str) : Bool :=
  match s with
  | y1 :: y2 :: y3 :: y4 :: h5 :: rest =>
    if h5 = '-' ∧ (isDigitC y1 && isDigitC y2 && isDigitC y3 && isDigitC y4) = true then
      let y := digitsVal [y1, y2, y3, y4]
      match parseMonth rest with
      | none => false
      | some (m, rest1) =>
        match rest1 with
        | [] => false
        | c :: rest2 =>
          if c = '-' then
            match parseDay rest2 with
            | none => false
            | some (d, rest3) =>
              rest3.isEmpty && decide (1 ≤ y) && decide (d ≤ daysInMonth y m)
          else false
    else false
  | _ => false

/-- Spec-side description of a valid `strptime("%Y-%m-%d")` input: a
four-digit year, a dash, a one- or two-digit month, a dash, a one- or
two-digit day, with year ≥ 1, month in 1–12 and day valid for the month
and year. -/
def ValidYMD (s : Str) : Prop :=
  ∃ ys ms ds : Str,
    s = ys ++ '-' :: ms ++ '-' :: ds ∧
    ys.length = 4 ∧ ys.all isDigitC = true ∧
    1 ≤ ms.length ∧ ms.length ≤ 2 ∧ ms.all isDigitC = true ∧
    1 ≤ ds.length ∧ ds.length ≤ 2 ∧ ds.all isDigitC = true ∧
    1 ≤ digitsVal ys ∧ 1 ≤ digitsVal ms ∧ digitsVal ms ≤ 12 ∧
    1 ≤ digitsVal ds ∧ digitsVal ds ≤ daysInMonth (digitsVal ys) (digitsVal ms)

/-- A field value that survives a save/load round trip verbatim: nonempty,
free of newlines (which would split the line) and carriage returns (which
universal-newline reading would also treat as a line break), free of the
separator `": "` (on which loading truncates), and not ending in
whitespace (which `line.strip()` would remove). -/
def safeValue (v : Str) : Bool :=
  !v.isEmpty &&
  v.all (fun c => !(c == '\n' || c == '\r')) &&
  !hasCS v &&
  (match v.getLast? with
   | some c => !isSpaceC c
   | none => false)

/-- The exact `YYYY-MM-DD` shape (digits with dashes at positions 4 and 7). -/
def ymdShape (s : Str) : Bool :=
  match s with
  | [a, b, c, d, e, f, g, h, i, j] =>
    e == '-' && h == '-' && [a, b, c, d, f, g, i, j].all isDigitC
  | _ => false

/-- A well-formed record in the sense of the round-trip claim: a
`YYYY-MM-DD` date, a sentinel category, a non-negative float amount, plus
the description safety the round trip in fact needs. -/
def wellFormedRecord (r : Record) : Prop :=
  ymdShape r.date = true ∧
  (r.category = toL "Доход" ∨ r.category = toL "Расход") ∧
  0 ≤ r.amount ∧ hasDecDen r.amount = true ∧
  safeValue r.description = true

/-- The record the loader's `record` variable holds after a run of blocks:
the last of `r0 :: rs`. -/
def lastRec (r0 : Record) : List Record → Record
  | [] => r0
  | r :: rs => lastRec r rs

/-- The records the loader has appended after a run of blocks: all of
`r0 :: rs` except the last. -/
def initRecs (r0 : Record) : List Record → List Record
  | [] => []
  | r :: rs => r0 :: initRecs r rs

/-! ## Basic string lemmas -/

theorem isPrefixOf_iff (p : Str) : ∀ l : Str, p.isPrefixOf l = true ↔ ∃ t, l = p ++ t := by
  induction p with
  | nil => intro l; simp [List.isPrefixOf]
  | cons a p ih =>
    intro l
    cases l with
    | nil => simp [List.isPrefixOf]
    | cons b l =>
      simp only [List.isPrefixOf, Bool.and_eq_true, beq_iff_eq, ih, List.cons_append,
        List.cons.injEq]
      constructor
      · rintro ⟨rfl, t, rfl⟩; exact ⟨t, rfl, rfl⟩
      · rintro ⟨t, rfl, rfl⟩; exact ⟨rfl, t, rfl⟩

theorem isPrefixOf_append_self (p t : Str) : p.isPrefixOf (p ++ t) = true :=
  (isPrefixOf_iff p (p ++ t)).mpr ⟨t, rfl⟩

theorem pyContains_nil (l : Str) : pyContains [] l = true := by
  cases l <;> simp [pyContains, List.isPrefixOf, List.isEmpty]

theorem pyContains_iff (q l : Str) : pyContains q l = true ↔ InfixOf q l := by
  induction l with
  | nil =>
    constructor
    · intro h
      have hq : q = [] := by simpa [pyContains, List.isEmpty_iff] using h
      exact ⟨[], [], by simp [hq]⟩
    · rintro ⟨a, b, hab⟩
      rcases List.append_eq_nil.mp (List.append_eq_nil.mp hab.symm).1 with ⟨rfl, rfl⟩
      simp [pyContains, List.isEmpty]
  | cons c rest ih =>
    simp only [pyContains, Bool.or_eq_true, ih, isPrefixOf_iff]
    constructor
    · rintro (⟨t, ht⟩ | ⟨a, b, rfl⟩)
      · exact ⟨[], t, by simp [ht]⟩
      · exact ⟨c :: a, b, by simp⟩
    · rintro ⟨a, b, hab⟩
      cases a with
      | nil => exact Or.inl ⟨b, by simpa using hab⟩
      | cons a0 a' =>
        right
        rcases List.cons.injEq .. ▸ hab with ⟨rfl, h2⟩
        exact ⟨a', b, h2⟩

/-! ## Small list index lemmas -/

theorem eraseIdx_get?_lt {α : Type} : ∀ (l : List α) (i j : ℕ), j < i →
    (l.eraseIdx i).get? j = l.get? j := by
  intro l
  induction l with
  | nil => intro i j _; simp [List.eraseIdx]
  | cons a l ih =>
    intro i j hj
    cases i with
    | zero => omega
    | succ i =>
      cases j with
      | zero => simp [List.eraseIdx]
      | succ j => simpa [List.eraseIdx] using ih i j (by omega)

theorem eraseIdx_get?_ge {α : Type} : ∀ (l : List α) (i j : ℕ), i ≤ j →
    (l.eraseIdx i).get? j = l.get? (j + 1) := by
  intro l
  induction l with
  | nil => intro i j _; simp [List.eraseIdx]
  | cons a l ih =>
    intro i j hij
    cases i with
    | zero => simp [List.eraseIdx]
    | succ i =>
      cases j with
      | zero => omega
      | succ j => simpa [List.eraseIdx] using ih i j (by omega)

theorem eraseIdx_length {α : Type} : ∀ (l : List α) (i : ℕ), i < l.length →
    (l.eraseIdx i).length = l.length - 1 := by
  intro l
  induction l with
  | nil => intro i h; simp at h
  | cons a l ih =>
    intro i h
    cases i with
    | zero => simp [List.eraseIdx]
    | succ i =>
      have hi : i < l.length := by simpa using Nat.lt_of_succ_lt_succ h
      have heq := ih i hi
      simp only [List.eraseIdx, List.length_cons, heq]
      omega

theorem set_get?_self {α : Type} : ∀ (l : List α) (i : ℕ) (a : α), i < l.length →
    (l.set i a).get? i = some a := by
  intro l
  induction l with
  | nil => intro i a h; simp at h
  | cons b l ih =>
    intro i a h
    cases i with
    | zero => simp
    | succ i => simpa using ih i a (by simpa using Nat.lt_of_succ_lt_succ h)

/-! ## C6: missing backing file -/

/-- C6: when the backing file does not exist, construction (`__init__`
running `load_data`) raises no error and leaves the records list empty. -/
theorem claim_C6_missing_file_loads_empty :
    initTracker none = (⟨[], none⟩, none) := rfl

/-! ## C9: empty query matches everything -/

/-- C9: `search_records` with the empty query matches every record (in
particular because `"" in record.date` is always true), returning the
whole enumerated list. -/
theorem claim_C9_empty_query_matches_all (records : List Record) :
    search_records records [] = records.enum := by
  unfold search_records
  apply List.filter_eq_self.mpr
  intro p _
  simp [pyContains_nil]

/-! ## C8: balance totals -/

theorem sum_filter_category (rs : List Record) (cat : Str) :
    ((rs.filter fun r => r.category == cat).map Record.amount).sum
      = (rs.map fun r => if r.category = cat then r.amount else 0).sum := by
  induction rs with
  | nil => simp
  | cons r rs ih =>
    by_cases h : r.category = cat <;> simp [List.filter_cons, h, ih]

/-- C8: `show_balance` computes income as the sum of amounts over records
with the Income sentinel category, expense likewise for the Expense
sentinel, and balance as their difference (the model is a pure function of
the record list, which it does not mutate); on the records
[{Income,100},{Expense,40},{Income,5}] it yields income 105, expense 40,
balance 65. -/
theorem claim_C8_show_balance_sums :
    (∀ records : List Record,
      (show_balance records).1
          = (records.map fun r => if r.category = toL "Доход" then r.amount else 0).sum ∧
      (show_balance records).2.1
          = (records.map fun r => if r.category = toL "Расход" then r.amount else 0).sum ∧
      (show_balance records).2.2 = (show_balance records).1 - (show_balance records).2.1) ∧
    show_balance
        [⟨toL "2024-01-01", toL "Доход", 100, toL "a"⟩,
         ⟨toL "2024-01-02", toL "Расход", 40, toL "b"⟩,
         ⟨toL "2024-01-03", toL "Доход", 5, toL "c"⟩] = (105, 40, 65) := by
  refine ⟨fun records => ⟨sum_filter_category records (toL "Доход"),
    sum_filter_category records (toL "Расход"), rfl⟩, by with_unfolding_all decide⟩

/-! ## C4: index guard on edit and delete -/

/-- C4: for an index outside `[0, len)` (negative indices included),
`edit_record` and `delete_record` raise nothing, leave the whole tracker —
records list and persisted file — exactly as it was, and do not save; for
an index inside the range, `edit_record` replaces the record at that
position wholesale and persists, and `delete_record` removes it, shifts
every later record down by one, and persists. -/
theorem claim_C4_index_guard (t : Tracker) (index : ℤ) (date category : Str) (amount : ℚ)
    (description : Str) :
    ((index < 0 ∨ (t.records.length : ℤ) ≤ index) →
       edit_record t index date category amount description = t ∧
       delete_record t index = t) ∧
    (0 ≤ index → index < (t.records.length : ℤ) →
       (edit_record t index date category amount description).records
           = t.records.set index.toNat ⟨date, category, amount, description⟩ ∧
       (edit_record t index date category amount description).records.get? index.toNat
           = some ⟨date, category, amount, description⟩ ∧
       (edit_record t index date category amount description).dataFile
           = some (renderRecords
               (t.records.set index.toNat ⟨date, category, amount, description⟩)) ∧
       (delete_record t index).records = t.records.eraseIdx index.toNat ∧
       (delete_record t index).records.length = t.records.length - 1 ∧
       (∀ j : ℕ, j < index.toNat → (delete_record t index).records.get? j = t.records.get? j) ∧
       (∀ j : ℕ, index.toNat ≤ j →
          (delete_record t index).records.get? j = t.records.get? (j + 1)) ∧
       (delete_record t index).dataFile
           = some (renderRecords (t.records.eraseIdx index.toNat))) := by
  constructor
  · intro h
    unfold edit_record delete_record
    rw [if_pos h, if_pos h]
    exact ⟨rfl, rfl⟩
  · intro h0 hlt
    have hni : ¬(index < 0 ∨ (t.records.length : ℤ) ≤ index) := by omega
    have hidx : index.toNat < t.records.length := by omega
    unfold edit_record delete_record
    rw [if_neg hni, if_neg hni]
    exact ⟨rfl, set_get?_self _ _ _ hidx, rfl, rfl, eraseIdx_length _ _ hidx,
      fun j hj => eraseIdx_get?_lt _ _ _ hj, fun j hj => eraseIdx_get?_ge _ _ _ hj, rfl⟩

/-- Closed instance of the C4 theorem at concrete inputs. -/
theorem claim_C4_index_guard_witness :
    (edit_record ⟨[⟨toL "2024-01-01", toL "Доход", 50, toL "x"⟩,
                   ⟨toL "2024-01-02", toL "Расход", 7, toL "y"⟩], none⟩ 5
        (toL "d") (toL "c") 1 (toL "e")
      = ⟨[⟨toL "2024-01-01", toL "Доход", 50, toL "x"⟩,
          ⟨toL "2024-01-02", toL "Расход", 7, toL "y"⟩], none⟩) ∧
    (delete_record ⟨[⟨toL "2024-01-01", toL "Доход", 50, toL "x"⟩,
                     ⟨toL "2024-01-02", toL "Расход", 7, toL "y"⟩], none⟩ (-1)
      = ⟨[⟨toL "2024-01-01", toL "Доход", 50, toL "x"⟩,
          ⟨toL "2024-01-02", toL "Расход", 7, toL "y"⟩], none⟩) ∧
    (delete_record ⟨[⟨toL "2024-01-01", toL "Доход", 50, toL "x"⟩,
                     ⟨toL "2024-01-02", toL "Расход", 7, toL "y"⟩], none⟩ 0).records.length = 1 :=
  ⟨((claim_C4_index_guard _ 5 (toL "d") (toL "c") 1 (toL "e")).1 (Or.inr (by decide))).1,
   ((claim_C4_index_guard _ (-1) (toL "d") (toL "c") 1 (toL "e")).1 (Or.inl (by decide))).2,
   by
    have h := ((claim_C4_index_guard
        ⟨[⟨toL "2024-01-01", toL "Доход", 50, toL "x"⟩,
          ⟨toL "2024-01-02", toL "Расход", 7, toL "y"⟩], none⟩ 0
        (toL "d") (toL "c") 1 (toL "e")).2 (by decide) (by decide)).2.2.2.2.1
    simpa using h⟩

/-! ## C7: the search match predicate -/

/-- C7: `search_records` returns, in index order, exactly the records for
which the query is a substring of the date, or a substring of the
category, or equal as a string to the decimal string form of the amount;
the right-hand side never consults the description field. -/
theorem claim_C7_search_predicate (records : List Record) (query : Str) (i : ℕ) (r : Record) :
    (i, r) ∈ search_records records query ↔
      records.get? i = some r ∧
        (InfixOf query r.date ∨ InfixOf query r.category ∨ pyFloatStr r.amount = query) := by
  unfold search_records
  rw [List.mem_filter, List.mk_mem_enum_iff_getElem?, List.get?_eq_getElem?]
  simp [pyContains_iff, beq_iff_eq, or_assoc]

/-- Closed instance of the C7 theorem: the spec's example record is found
by a category query, an exact stringified-amount query and a date query,
but not by a query matching only its description. -/
theorem claim_C7_search_predicate_witness :
    (0, (⟨toL "2024-01-01", toL "Доход", 50, toL "x"⟩ : Record))
        ∈ search_records [⟨toL "2024-01-01", toL "Доход", 50, toL "x"⟩] (toL "Доход") ∧
    (0, (⟨toL "2024-01-01", toL "Доход", 50, toL "x"⟩ : Record))
        ∈ search_records [⟨toL "2024-01-01", toL "Доход", 50, toL "x"⟩] (toL "50.0") ∧
    (0, (⟨toL "2024-01-01", toL "Доход", 50, toL "x"⟩ : Record))
        ∈ search_records [⟨toL "2024-01-01", toL "Доход", 50, toL "x"⟩] (toL "2024-01-01") ∧
    (0, (⟨toL "2024-01-01", toL "Доход", 50, toL "x"⟩ : Record))
        ∉ search_records [⟨toL "2024-01-01", toL "Доход", 50, toL "x"⟩] (toL "x") := by
  refine ⟨(claim_C7_search_predicate _ _ _ _).mpr ⟨by decide, Or.inr (Or.inl ⟨[], [], by decide⟩)⟩,
    (claim_C7_search_predicate _ _ _ _).mpr ⟨by decide, Or.inr (Or.inr (by decide))⟩,
    (claim_C7_search_predicate _ _ _ _).mpr ⟨by decide, Or.inl ⟨[], [], by decide⟩⟩,
    fun h => ?_⟩
  rcases ((claim_C7_search_predicate _ _ _ _).mp h).2 with hd | hc | ha
  · exact absurd ((pyContains_iff _ _).mpr hd) (by decide)
  · exact absurd ((pyContains_iff _ _).mpr hc) (by decide)
  · exact absurd ha (by decide)

/-! ## Character arithmetic helpers -/

theorem char_le_iff {a b : Char} : a ≤ b ↔ a.toNat ≤ b.toNat := by
  simp [Char.le_def, UInt32.le_def, BitVec.le_def, Char.toNat, UInt32.toNat]

theorem char_eq_iff {a b : Char} : a = b ↔ a.toNat = b.toNat := by
  constructor
  · intro h; rw [h]
  · intro h; exact Char.ext (UInt32.eq_of_toBitVec_eq (BitVec.eq_of_toNat_eq h))

theorem tn0 : ('0' : Char).toNat = 48 := by decide
theorem tn1 : ('1' : Char).toNat = 49 := by decide
theorem tn2 : ('2' : Char).toNat = 50 := by decide
theorem tn3 : ('3' : Char).toNat = 51 := by decide
theorem tn4 : ('4' : Char).toNat = 52 := by decide
theorem tn9 : ('9' : Char).toNat = 57 := by decide

theorem dv0 : digitVal '0' = 0 := by decide
theorem dv1 : digitVal '1' = 1 := by decide
theorem dv2 : digitVal '2' = 2 := by decide
theorem dv3 : digitVal '3' = 3 := by decide

theorem isDigitC_iff {c : Char} : isDigitC c = true ↔ 48 ≤ c.toNat ∧ c.toNat ≤ 57 := by
  have h0 : ('0' : Char).toNat = 48 := tn0
  have h9 : ('9' : Char).toNat = 57 := tn9
  simp [isDigitC, char_le_iff, h0, h9]

theorem digitVal_eq (c : Char) : digitVal c = c.toNat - 48 := rfl

theorem digitsVal_one (c : Char) : digitsVal [c] = digitVal c := by
  simp [digitsVal]

theorem digitsVal_two (c d : Char) : digitsVal [c, d] = 10 * digitVal c + digitVal d := by
  simp [digitsVal]

theorem daysInMonth_le_31 (y m : ℕ) : daysInMonth y m ≤ 31 := by
  unfold daysInMonth
  split_ifs <;> omega

/-! ## Inversion and evaluation of the strptime month and day parsers -/

theorem parseMonth_inv {l t : Str} {m : ℕ} (h : parseMonth l = some (m, t)) :
    ∃ ms : Str, l = ms ++ t ∧ ms.all isDigitC = true ∧ 1 ≤ ms.length ∧ ms.length ≤ 2 ∧
      digitsVal ms = m ∧ 1 ≤ m ∧ m ≤ 12 := by
  cases l with
  | nil => simp [parseMonth] at h
  | cons c rest =>
    cases rest with
    | nil =>
      simp only [parseMonth] at h
      split_ifs at h with hc1 hc0 hc29
      · simp only [Option.some.injEq, Prod.mk.injEq] at h
        obtain ⟨rfl, rfl⟩ := h
        subst hc1
        exact ⟨['1'], by simp, by decide, by decide, by decide, by decide, by decide, by decide⟩
      · simp only [Option.some.injEq, Prod.mk.injEq] at h
        obtain ⟨rfl, rfl⟩ := h
        have hd1 := char_le_iff.mp hc29.1
        have hd2 := char_le_iff.mp hc29.2
        rw [tn2] at hd1; rw [tn9] at hd2
        refine ⟨[c], by simp, ?_, by simp, by simp, digitsVal_one c, ?_, ?_⟩
        · simp [isDigitC_iff]; omega
        · rw [digitVal_eq]; omega
        · rw [digitVal_eq]; omega
    | cons d rest2 =>
      simp only [parseMonth] at h
      split_ifs at h with hc1 hd hc0 hd9 hc29
      · simp only [Option.some.injEq, Prod.mk.injEq] at h
        obtain ⟨rfl, rfl⟩ := h
        subst hc1
        have hd1 := char_le_iff.mp hd.1
        have hd2 := char_le_iff.mp hd.2
        rw [tn0] at hd1; rw [tn2] at hd2
        refine ⟨['1', d], by simp, ?_, by simp, by simp, ?_, by omega, ?_⟩
        · simp [isDigitC_iff]; omega
        · rw [digitsVal_two, dv1, digitVal_eq]
        · rw [digitVal_eq]; omega
      · simp only [Option.some.injEq, Prod.mk.injEq] at h
        obtain ⟨rfl, rfl⟩ := h
        subst hc1
        exact ⟨['1'], by simp, by decide, by decide, by decide, by decide, by decide, by decide⟩
      · simp only [Option.some.injEq, Prod.mk.injEq] at h
        obtain ⟨rfl, rfl⟩ := h
        subst hc0
        have hd1 := char_le_iff.mp hd9.1
        have hd2 := char_le_iff.mp hd9.2
        rw [tn1] at hd1; rw [tn9] at hd2
        refine ⟨['0', d], by simp, ?_, by simp, by simp, ?_, ?_, ?_⟩
        · simp [isDigitC_iff]; omega
        · rw [digitsVal_two, dv0, digitVal_eq]; omega
        · rw [digitVal_eq]; omega
        · rw [digitVal_eq]; omega
      · simp only [Option.some.injEq, Prod.mk.injEq] at h
        obtain ⟨rfl, rfl⟩ := h
        have hd1 := char_le_iff.mp hc29.1
        have hd2 := char_le_iff.mp hc29.2
        rw [tn2] at hd1; rw [tn9] at hd2
        refine ⟨[c], by simp, ?_, by simp, by simp, digitsVal_one c, ?_, ?_⟩
        · simp [isDigitC_iff]; omega
        · rw [digitVal_eq]; omega
        · rw [digitVal_eq]; omega

theorem parseDay_inv {l t : Str} {d : ℕ} (h : parseDay l = some (d, t)) :
    ∃ ds : Str, l = ds ++ t ∧ ds.all isDigitC = true ∧ 1 ≤ ds.length ∧ ds.length ≤ 2 ∧
      digitsVal ds = d ∧ 1 ≤ d ∧ d ≤ 31 := by
  cases l with
  | nil => simp [parseDay] at h
  | cons c rest =>
    cases rest with
    | nil =>
      simp only [parseDay] at h
      split_ifs at h with hc3 hc12 hc0 hc49
      · simp only [Option.some.injEq, Prod.mk.injEq] at h
        obtain ⟨rfl, rfl⟩ := h
        subst hc3
        exact ⟨['3'], by simp, by decide, by decide, by decide, by decide, by decide, by decide⟩
      · simp only [Option.some.injEq, Prod.mk.injEq] at h
        obtain ⟨rfl, rfl⟩ := h
        rcases hc12 with rfl | rfl
        · exact ⟨['1'], by simp, by decide, by decide, by decide, by decide, by decide, by decide⟩
        · exact ⟨['2'], by simp, by decide, by decide, by decide, by decide, by decide, by decide⟩
      · simp only [Option.some.injEq, Prod.mk.injEq] at h
        obtain ⟨rfl, rfl⟩ := h
        have hd1 := char_le_iff.mp hc49.1
        have hd2 := char_le_iff.mp hc49.2
        rw [tn4] at hd1; rw [tn9] at hd2
        refine ⟨[c], by simp, ?_, by simp, by simp, digitsVal_one c, ?_, ?_⟩
        · simp [isDigitC_iff]; omega
        · rw [digitVal_eq]; omega
        · rw [digitVal_eq]; omega
    | cons e rest2 =>
      simp only [parseDay] at h
      split_ifs at h with hc3 he01 hc12 he09 hc0 he19 hc49
      · simp only [Option.some.injEq, Prod.mk.injEq] at h
        obtain ⟨rfl, rfl⟩ := h
        subst hc3
        rcases he01 with rfl | rfl
        · exact ⟨['3', '0'], by simp, by decide, by decide, by decide, by decide, by decide,
            by decide⟩
        · exact ⟨['3', '1'], by simp, by decide, by decide, by decide, by decide, by decide,
            by decide⟩
      · simp only [Option.some.injEq, Prod.mk.injEq] at h
        obtain ⟨rfl, rfl⟩ := h
        subst hc3
        exact ⟨['3'], by simp, by decide, by decide, by decide, by decide, by decide, by decide⟩
      · simp only [Option.some.injEq, Prod.mk.injEq] at h
        obtain ⟨rfl, rfl⟩ := h
        have hd1 := char_le_iff.mp he09.1
        have hd2 := char_le_iff.mp he09.2
        rw [tn0] at hd1; rw [tn9] at hd2
        rcases hc12 with rfl | rfl
        · refine ⟨['1', e], by simp, ?_, by simp, by simp, ?_, ?_, ?_⟩
          · simp [isDigitC_iff]; omega
          · rw [digitsVal_two, dv1, digitVal_eq]
          · rw [dv1, digitVal_eq]; omega
          · rw [dv1, digitVal_eq]; omega
        · refine ⟨['2', e], by simp, ?_, by simp, by simp, ?_, ?_, ?_⟩
          · simp [isDigitC_iff]; omega
          · rw [digitsVal_two, dv2, digitVal_eq]
          · rw [dv2, digitVal_eq]; omega
          · rw [dv2, digitVal_eq]; omega
      · simp only [Option.some.injEq, Prod.mk.injEq] at h
        obtain ⟨rfl, rfl⟩ := h
        rcases hc12 with rfl | rfl
        · exact ⟨['1'], by simp, by decide, by decide, by decide, by decide, by decide, by decide⟩
        · exact ⟨['2'], by simp, by decide, by decide, by decide, by decide, by decide, by decide⟩
      · simp only [Option.some.injEq, Prod.mk.injEq] at h
        obtain ⟨rfl, rfl⟩ := h
        subst hc0
        have hd1 := char_le_iff.mp he19.1
        have hd2 := char_le_iff.mp he19.2
        rw [tn1] at hd1; rw [tn9] at hd2
        refine ⟨['0', e], by simp, ?_, by simp, by simp, ?_, ?_, ?_⟩
        · simp [isDigitC_iff]; omega
        · rw [digitsVal_two, dv0, digitVal_eq]; omega
        · rw [digitVal_eq]; omega
        · rw [digitVal_eq]; omega
      · simp only [Option.some.injEq, Prod.mk.injEq] at h
        obtain ⟨rfl, rfl⟩ := h
        have hd1 := char_le_iff.mp hc49.1
        have hd2 := char_le_iff.mp hc49.2
        rw [tn4] at hd1; rw [tn9] at hd2
        refine ⟨[c], by simp, ?_, by simp, by simp, digitsVal_one c, ?_, ?_⟩
        · simp [isDigitC_iff]; omega
        · rw [digitVal_eq]; omega
        · rw [digitVal_eq]; omega

theorem parseMonth_eval {ms : Str} (hall : ms.all isDigitC = true) (h1 : 1 ≤ ms.length)
    (h2 : ms.length ≤ 2) (hlo : 1 ≤ digitsVal ms) (hhi : digitsVal ms ≤ 12) (w : Str) :
    parseMonth (ms ++ '-' :: w) = some (digitsVal ms, '-' :: w) := by
  rcases ms with _ | ⟨c, _ | ⟨d, _ | ⟨e, ms⟩⟩⟩
  · simp at h1
  · clear h1 h2
    simp only [List.all_cons, List.all_nil, Bool.and_true] at hall
    have hc := isDigitC_iff.mp hall
    rw [digitsVal_one, digitVal_eq] at hlo hhi
    by_cases hc1 : c = '1'
    · subst hc1
      simp [parseMonth, digitsVal_one, dv1]
    · by_cases hc0 : c = '0'
      · exfalso; subst hc0; rw [tn0] at hlo; omega
      · have h29 : '2' ≤ c ∧ c ≤ '9' := by
          rw [char_le_iff, char_le_iff, tn2, tn9]
          have hne0 : c.toNat ≠ 48 := fun he => hc0 (char_eq_iff.mpr (by rw [he, tn0]))
          have hne1 : c.toNat ≠ 49 := fun he => hc1 (char_eq_iff.mpr (by rw [he, tn1]))
          omega
        simp only [List.cons_append, List.nil_append, parseMonth]
        rw [if_neg hc1, if_neg hc0, if_pos h29, digitsVal_one]
  · clear h1 h2
    simp only [List.all_cons, List.all_nil, Bool.and_true, Bool.and_eq_true] at hall
    obtain ⟨hcd, hdd⟩ := hall
    have hc := isDigitC_iff.mp hcd
    have hd := isDigitC_iff.mp hdd
    rw [digitsVal_two, digitVal_eq, digitVal_eq] at hlo hhi
    by_cases hc1 : c = '1'
    · subst hc1
      rw [tn1] at hlo hhi
      have hd0 : '0' ≤ d := char_le_iff.mpr (by rw [tn0]; omega)
      have hd2 : d ≤ '2' := char_le_iff.mpr (by rw [tn2]; omega)
      simp only [List.cons_append, List.nil_append, parseMonth]
      rw [if_pos trivial, if_pos ⟨hd0, hd2⟩]
      have hv : digitsVal ['1', d] = 10 + digitVal d := by simp [digitsVal_two, dv1]
      rw [hv]
    · by_cases hc0 : c = '0'
      · subst hc0
        rw [tn0] at hlo hhi
        have hd1 : '1' ≤ d := char_le_iff.mpr (by rw [tn1]; omega)
        have hd9 : d ≤ '9' := char_le_iff.mpr (by rw [tn9]; omega)
        simp only [List.cons_append, List.nil_append, parseMonth]
        rw [if_neg (by decide : ¬('0' : Char) = '1'), if_pos trivial, if_pos ⟨hd1, hd9⟩]
        have hv : digitsVal ['0', d] = digitVal d := by simp [digitsVal_two, dv0]
        rw [hv]
      · exfalso
        have hne0 : c.toNat ≠ 48 := fun he => hc0 (char_eq_iff.mpr (by rw [he, tn0]))
        have hne1 : c.toNat ≠ 49 := fun he => hc1 (char_eq_iff.mpr (by rw [he, tn1]))
        omega
  · simp at h2

theorem parseDay_eval {ds : Str} (hall : ds.all isDigitC = true) (h1 : 1 ≤ ds.length)
    (h2 : ds.length ≤ 2) (hlo : 1 ≤ digitsVal ds) (hhi : digitsVal ds ≤ 31) :
    parseDay ds = some (digitsVal ds, []) := by
  rcases ds with _ | ⟨c, _ | ⟨d, _ | ⟨e, ds⟩⟩⟩
  · simp at h1
  · clear h1 h2
    simp only [List.all_cons, List.all_nil, Bool.and_true] at hall
    have hc := isDigitC_iff.mp hall
    rw [digitsVal_one, digitVal_eq] at hlo hhi
    by_cases hc3 : c = '3'
    · subst hc3
      simp [parseDay, digitsVal_one, dv3]
    · by_cases hc12 : c = '1' ∨ c = '2'
      · rcases hc12 with rfl | rfl
        · simp [parseDay, digitsVal_one, dv1]
        · simp [parseDay, digitsVal_one, dv2]
      · by_cases hc0 : c = '0'
        · exfalso; subst hc0; rw [tn0] at hlo; omega
        · have h49 : '4' ≤ c ∧ c ≤ '9' := by
            rw [char_le_iff, char_le_iff, tn4, tn9]
            have hne0 : c.toNat ≠ 48 := fun he => hc0 (char_eq_iff.mpr (by rw [he, tn0]))
            have hne1 : c.toNat ≠ 49 :=
              fun he => hc12 (Or.inl (char_eq_iff.mpr (by rw [he, tn1])))
            have hne2 : c.toNat ≠ 50 :=
              fun he => hc12 (Or.inr (char_eq_iff.mpr (by rw [he, tn2])))
            have hne3 : c.toNat ≠ 51 := fun he => hc3 (char_eq_iff.mpr (by rw [he, tn3]))
            omega
          simp only [parseDay]
          rw [if_neg hc3, if_neg hc12, if_neg hc0, if_pos h49, digitsVal_one]
  · clear h1 h2
    simp only [List.all_cons, List.all_nil, Bool.and_true, Bool.and_eq_true] at hall
    obtain ⟨hcd, hdd⟩ := hall
    have hc := isDigitC_iff.mp hcd
    have hd := isDigitC_iff.mp hdd
    rw [digitsVal_two, digitVal_eq, digitVal_eq] at hlo hhi
    by_cases hc3 : c = '3'
    · subst hc3
      rw [tn3] at hlo hhi
      have hd01 : d = '0' ∨ d = '1' := by
        have : d.toNat = 48 ∨ d.toNat = 49 := by omega
        rcases this with h' | h'
        · exact Or.inl (char_eq_iff.mpr (by rw [h', tn0]))
        · exact Or.inr (char_eq_iff.mpr (by rw [h', tn1]))
      simp only [parseDay]
      rw [if_pos trivial, if_pos hd01]
      have hv : digitsVal ['3', d] = 30 + digitVal d := by simp [digitsVal_two, dv3]
      rw [hv]
    · by_cases hc12 : c = '1' ∨ c = '2'
      · have hd0 : '0' ≤ d := char_le_iff.mpr (by rw [tn0]; omega)
        have hd9 : d ≤ '9' := char_le_iff.mpr (by rw [tn9]; omega)
        rcases hc12 with rfl | rfl
        · simp only [parseDay]
          rw [if_neg (by decide : ¬('1' : Char) = '3'), if_pos (Or.inl trivial),
            if_pos ⟨hd0, hd9⟩, digitsVal_two]
        · simp only [parseDay]
          rw [if_neg (by decide : ¬('2' : Char) = '3'), if_pos (Or.inr trivial),
            if_pos ⟨hd0, hd9⟩, digitsVal_two]
      · by_cases hc0 : c = '0'
        · subst hc0
          rw [tn0] at hlo hhi
          have hd1 : '1' ≤ d := char_le_iff.mpr (by rw [tn1]; omega)
          have hd9 : d ≤ '9' := char_le_iff.mpr (by rw [tn9]; omega)
          simp only [parseDay]
          rw [if_neg (by decide : ¬('0' : Char) = '3'),
            if_neg (by decide : ¬(('0' : Char) = '1' ∨ ('0' : Char) = '2')), if_pos trivial,
            if_pos ⟨hd1, hd9⟩]
          have hv : digitsVal ['0', d] = digitVal d := by simp [digitsVal_two, dv0]
          rw [hv]
        · exfalso
          have hne0 : c.toNat ≠ 48 := fun he => hc0 (char_eq_iff.mpr (by rw [he, tn0]))
          have hne1 : c.toNat ≠ 49 :=
            fun he => hc12 (Or.inl (char_eq_iff.mpr (by rw [he, tn1])))
          have hne2 : c.toNat ≠ 50 :=
            fun he => hc12 (Or.inr (char_eq_iff.mpr (by rw [he, tn2])))
          have hne3 : c.toNat ≠ 51 := fun he => hc3 (char_eq_iff.mpr (by rw [he, tn3]))
          omega
  · simp at h2

theorem is_valid_date_spec (s : Str) : is_valid_date s = true ↔ ValidYMD s := by
  constructor
  · intro h
    rcases s with _ | ⟨y1, _ | ⟨y2, _ | ⟨y3, _ | ⟨y4, _ | ⟨h5, rest⟩⟩⟩⟩⟩
    · simp [is_valid_date] at h
    · simp [is_valid_date] at h
    · simp [is_valid_date] at h
    · simp [is_valid_date] at h
    · simp [is_valid_date] at h
    · simp only [is_valid_date] at h
      split_ifs at h with hcond
      obtain ⟨rfl, hdig⟩ := hcond
      rcases hpm : parseMonth rest with _ | ⟨m, rest1⟩ <;> rw [hpm] at h
      · simp at h
      · rcases rest1 with _ | ⟨c, rest2⟩
        · simp at h
        · simp only at h
          split_ifs at h with hc
          subst hc
          rcases hpd : parseDay rest2 with _ | ⟨d, rest3⟩ <;> rw [hpd] at h
          · simp at h
          · simp only [Bool.and_eq_true, List.isEmpty_iff, decide_eq_true_eq] at h
            obtain ⟨⟨hrest3, hy1⟩, hday⟩ := h
            subst hrest3
            obtain ⟨ms, hrest, hmsall, hms1, hms2, hmsv, hm1, hm2⟩ := parseMonth_inv hpm
            obtain ⟨ds, hrest2, hdsall, hds1, hds2, hdsv, hd1, _⟩ := parseDay_inv hpd
            rw [List.append_nil] at hrest2
            subst hrest2
            subst hrest
            refine ⟨[y1, y2, y3, y4], ms, rest2, by simp, by simp, ?_, hms1, hms2, hmsall,
              hds1, hds2, hdsall, hy1, ?_, ?_, ?_, ?_⟩
            · simp only [List.all_cons, List.all_nil, Bool.and_true]
              simp only [Bool.and_eq_true] at hdig
              simp [hdig.1.1.1, hdig.1.1.2, hdig.1.2, hdig.2]
            · rw [hmsv]; exact hm1
            · rw [hmsv]; exact hm2
            · rw [hdsv]; exact hd1
            · rw [hmsv, hdsv]; exact hday
  · rintro ⟨ys, ms, ds, rfl, hys4, hysd, hms1, hms2, hmsd, hds1, hds2, hdsd, hy, hm1, hm2,
      hd1, hd2⟩
    rcases ys with _ | ⟨y1, _ | ⟨y2, _ | ⟨y3, _ | ⟨y4, _ | ⟨y5, ys⟩⟩⟩⟩⟩ <;> simp at hys4
    simp only [List.all_cons, List.all_nil, Bool.and_true, Bool.and_eq_true] at hysd
    simp only [List.cons_append, List.nil_append, is_valid_date]
    rw [if_pos ⟨trivial, by simp [hysd.1, hysd.2.1, hysd.2.2.1, hysd.2.2.2]⟩]
    rw [parseMonth_eval hmsd hms1 hms2 hm1 hm2 ds]
    simp only [parseDay_eval hdsd hds1 hds2 hd1 (le_trans hd2 (daysInMonth_le_31 _ _)),
      List.isEmpty_nil, Bool.true_and, Bool.and_eq_true, decide_eq_true_eq, if_true]
    exact ⟨hy, hd2⟩

/-! ## C2: the date validator -/

/-- C2 counterexample: the claim states `is_valid_date("2024-1-1")` is
false because month and day are not zero-padded, but
`datetime.strptime`'s `%m`/`%d` patterns (`1[0-2]|0[1-9]|[1-9]` and
`3[01]|[12]\d|0[1-9]|[1-9]`) also accept unpadded one-digit fields, so the
code returns true. -/
theorem claim_C2_counterexample : is_valid_date (toL "2024-1-1") = true := by decide

/-- C2 (amended): `is_valid_date s` is true iff `s` consists of a
four-digit year, a dash, a one- or two-digit month, a dash, and a one- or
two-digit day, with year ≥ 1, month in 1–12 and day valid for that month
and year — zero padding of month and day is optional, not required.  In
particular "2024-02-29" (leap year) is valid, "2023-02-29" and
"2024-13-01" are not, and "2024-1-1" IS valid.  The check never raises
(the model is a total function). -/
theorem claim_C2_strptime_semantics :
    (∀ s : Str, is_valid_date s = true ↔ ValidYMD s) ∧
    is_valid_date (toL "2024-02-29") = true ∧
    is_valid_date (toL "2023-02-29") = false ∧
    is_valid_date (toL "2024-13-01") = false ∧
    is_valid_date (toL "2024-1-1") = true :=
  ⟨is_valid_date_spec, by decide, by decide, by decide, by decide⟩

/-- Closed instance of the C2 theorem: the leap-day example satisfies the
spec-side shape predicate. -/
theorem claim_C2_strptime_semantics_witness : ValidYMD (toL "2024-02-29") :=
  (claim_C2_strptime_semantics.1 (toL "2024-02-29")).mp (by decide)

/-! ## Split and strip lemmas -/

theorem consHead_cons (c : Char) (h : Str) (t : List Str) :
    consHead c (h :: t) = (c :: h) :: t := rfl

theorem splitCS_sep (w : Str) : splitCS (':' :: ' ' :: w) = [] :: splitCS w := by
  simp [splitCS]

theorem splitCS_no_sep : ∀ (v : Str), hasCS v = false → splitCS v = [v] := by
  intro v
  induction v with
  | nil => intro _; rfl
  | cons c rest ih =>
    intro h
    cases rest with
    | nil => rfl
    | cons d rest2 =>
      simp only [hasCS, Bool.or_eq_false_iff] at h
      simp only [splitCS]
      rw [if_neg (fun hcd => by rcases hcd with ⟨rfl, rfl⟩; simp at h)]
      rw [ih h.2]
      rfl

theorem splitCS_append : ∀ (v w : Str), hasCS v = false →
    splitCS (v ++ ':' :: ' ' :: w) = v :: splitCS w := by
  intro v
  induction v with
  | nil => intro w _; exact splitCS_sep w
  | cons c rest ih =>
    intro w h
    cases rest with
    | nil =>
      simp only [List.cons_append, List.nil_append, splitCS]
      rw [if_neg (fun hcd => by simpa using hcd.2)]
      rw [if_pos ⟨trivial, trivial⟩]
      rfl
    | cons d rest2 =>
      simp only [hasCS, Bool.or_eq_false_iff] at h
      rw [List.cons_append, List.cons_append]
      simp only [splitCS]
      rw [if_neg (fun hcd => by rcases hcd with ⟨rfl, rfl⟩; simp at h)]
      have hih := ih w h.2
      rw [List.cons_append] at hih
      rw [hih]
      rfl

theorem lineValue_append (lab v : Str) (hlab : hasCS lab = false) (hv : hasCS v = false) :
    lineValue (lab ++ ':' :: ' ' :: v) = some v := by
  unfold lineValue
  rw [splitCS_append lab _ hlab, splitCS_no_sep v hv]
  rfl

theorem lineValue_append_two (lab v1 v2 : Str) (hlab : hasCS lab = false)
    (hv : hasCS v1 = false) :
    lineValue (lab ++ ':' :: ' ' :: (v1 ++ ':' :: ' ' :: v2)) = some v1 := by
  unfold lineValue
  rw [splitCS_append lab _ hlab, splitCS_append v1 _ hv]
  rfl

theorem dropWhile_eq_self_of_head {p : Char → Bool} : ∀ (l : Str),
    (∀ a, l.head? = some a → p a = false) → l.dropWhile p = l := by
  intro l h
  cases l with
  | nil => rfl
  | cons c rest =>
    rw [List.dropWhile_cons, if_neg]
    simp [h c rfl]

theorem pyStrip_eq_self {l : Str} (h1 : ∀ a, l.head? = some a → isSpaceC a = false)
    (h2 : ∀ a, l.getLast? = some a → isSpaceC a = false) : pyStrip l = l := by
  unfold pyStrip
  rw [dropWhile_eq_self_of_head l h1]
  rw [dropWhile_eq_self_of_head l.reverse
    (fun a ha => h2 a (by rwa [List.head?_reverse] at ha))]
  exact List.reverse_reverse l

theorem splitNL_append : ∀ (l : Str), (∀ c ∈ l, c ≠ '\n') → ∀ (w : Str),
    splitNL (l ++ '\n' :: w) = l :: splitNL w := by
  intro l
  induction l with
  | nil => intro _ w; simp [splitNL]
  | cons c rest ih =>
    intro h w
    rw [List.cons_append]
    simp only [splitNL]
    rw [if_neg (h c (List.mem_cons_self c rest))]
    rw [ih (fun x hx => h x (List.mem_cons_of_mem c hx)) w]
    rfl

/-! ## Decimal digit string lemmas -/

theorem digitsVal_foldl : ∀ (b : Str) (acc : ℕ),
    b.foldl (fun a c => 10 * a + digitVal c) acc = acc * 10 ^ b.length + digitsVal b := by
  intro b
  induction b with
  | nil => intro acc; simp [digitsVal]
  | cons c r ih =>
    intro acc
    have hc : digitsVal (c :: r) = digitVal c * 10 ^ r.length + digitsVal r := by
      show List.foldl _ (10 * 0 + digitVal c) r = _
      rw [ih (10 * 0 + digitVal c)]
      ring_nf
    simp only [List.foldl_cons]
    rw [ih (10 * acc + digitVal c), hc, List.length_cons]
    ring

theorem digitsVal_append (a b : Str) :
    digitsVal (a ++ b) = digitsVal a * 10 ^ b.length + digitsVal b := by
  unfold digitsVal
  rw [List.foldl_append]
  exact digitsVal_foldl b _

theorem digitsVal_snoc (l : Str) (c : Char) :
    digitsVal (l ++ [c]) = 10 * digitsVal l + digitVal c := by
  rw [digitsVal_append]
  simp [digitsVal]
  ring

theorem digitsVal_replicate_zero (z : ℕ) : digitsVal (List.replicate z '0') = 0 := by
  induction z with
  | zero => rfl
  | succ n ih =>
    show List.foldl _ (10 * 0 + digitVal '0') (List.replicate n '0') = 0
    rw [digitsVal_foldl]
    simpa [dv0] using ih

theorem digitsVal_all_zero {l : Str} (h : ∀ c ∈ l, c = '0') : digitsVal l = 0 := by
  rw [List.eq_replicate_of_mem h, digitsVal_replicate_zero]

theorem digitChar10_spec {d : ℕ} (h : d < 10) :
    isDigitC (digitChar10 d) = true ∧ digitVal (digitChar10 d) = d := by
  interval_cases d <;> exact ⟨by decide, by decide⟩

theorem ntd_aux_spec : ∀ (fuel n : ℕ), n ≤ fuel →
    digitsVal (natToDigitsAux fuel n) = n ∧ (∀ c ∈ natToDigitsAux fuel n, isDigitC c = true) := by
  intro fuel
  induction fuel with
  | zero =>
    intro n h
    have : n = 0 := by omega
    subst this
    exact ⟨rfl, by simp [natToDigitsAux]⟩
  | succ f ih =>
    intro n h
    by_cases h0 : n = 0
    · subst h0; exact ⟨rfl, by simp [natToDigitsAux]⟩
    · simp only [natToDigitsAux, if_neg h0]
      have hlt : n / 10 < n := Nat.div_lt_self (Nat.pos_of_ne_zero h0) (by omega)
      obtain ⟨hv, hd⟩ := ih (n / 10) (by omega)
      have hc := digitChar10_spec (Nat.mod_lt n (show 0 < 10 by omega))
      constructor
      · rw [digitsVal_snoc, hv, hc.2]
        omega
      · intro c hcm
        rcases List.mem_append.mp hcm with hm | hm
        · exact hd c hm
        · rw [List.mem_singleton.mp hm]; exact hc.1

theorem natToDigits_spec (n : ℕ) :
    digitsVal (natToDigits n) = n ∧ (∀ c ∈ natToDigits n, isDigitC c = true) ∧
      natToDigits n ≠ [] := by
  unfold natToDigits
  split_ifs with h0
  · subst h0
    exact ⟨by decide, by decide, by decide⟩
  · obtain ⟨hv, hd⟩ := ntd_aux_spec n n le_rfl
    refine ⟨hv, hd, ?_⟩
    cases n with
    | zero => exact absurd rfl h0
    | succ m =>
      simp only [natToDigitsAux, if_neg h0]
      exact fun hcontra => by simpa using congrArg List.length hcontra

/-! ## Character classes and trailing zeros -/

theorem digit_ne_of_toNat {c x : Char} (h : isDigitC c = true)
    (hx : x.toNat < 48 ∨ 57 < x.toNat) : c ≠ x := by
  intro he
  have hn := isDigitC_iff.mp h
  rw [char_eq_iff] at he
  omega

theorem digit_not_space {c : Char} (h : isDigitC c = true) : isSpaceC c = false := by
  have h1 : c ≠ ' ' := digit_ne_of_toNat h (by decide)
  have h2 : c ≠ '\t' := digit_ne_of_toNat h (by decide)
  have h3 : c ≠ '\n' := digit_ne_of_toNat h (by decide)
  have h4 : c ≠ '\r' := digit_ne_of_toNat h (by decide)
  have h5 : c ≠ '\x0b' := digit_ne_of_toNat h (by decide)
  have h6 : c ≠ '\x0c' := digit_ne_of_toNat h (by decide)
  simp [isSpaceC, h1, h2, h3, h4, h5, h6]

theorem hasCS_of_no_colon : ∀ (l : Str), (∀ c ∈ l, c ≠ ':') → hasCS l = false := by
  intro l
  induction l with
  | nil => intro _; rfl
  | cons c rest ih =>
    intro h
    cases rest with
    | nil => rfl
    | cons d rest2 =>
      simp only [hasCS, Bool.or_eq_false_iff]
      refine ⟨?_, ih (fun x hx => h x (List.mem_cons_of_mem c hx))⟩
      have := h c (List.mem_cons_self c (d :: rest2))
      simp [this]

theorem takeWhile_all (p : Char → Bool) : ∀ (l : Str), (∀ c ∈ l, p c = true) →
    l.takeWhile p = l ∧ l.dropWhile p = [] := by
  intro l
  induction l with
  | nil => intro _; exact ⟨rfl, rfl⟩
  | cons c r ih =>
    intro h
    have hc := h c (List.mem_cons_self c r)
    obtain ⟨h1, h2⟩ := ih (fun x hx => h x (List.mem_cons_of_mem c hx))
    rw [List.takeWhile_cons, List.dropWhile_cons]
    constructor
    · rw [if_pos (by simp [hc]), h1]
    · rw [if_pos (by simp [hc]), h2]

theorem takeWhile_append_stop (p : Char → Bool) : ∀ (a : Str), (∀ c ∈ a, p c = true) →
    ∀ (c : Char), p c = false → ∀ (b : Str),
    (a ++ c :: b).takeWhile p = a ∧ (a ++ c :: b).dropWhile p = c :: b := by
  intro a
  induction a with
  | nil =>
    intro _ c hc b
    rw [List.nil_append, List.takeWhile_cons, List.dropWhile_cons]
    exact ⟨by rw [if_neg (by simp [hc])], by rw [if_neg (by simp [hc])]⟩
  | cons x a ih =>
    intro h c hc b
    have hx := h x (List.mem_cons_self x a)
    obtain ⟨h1, h2⟩ := ih (fun y hy => h y (List.mem_cons_of_mem x hy)) c hc b
    rw [List.cons_append, List.takeWhile_cons, List.dropWhile_cons]
    exact ⟨by rw [if_pos (by simp [hx]), h1], by rw [if_pos (by simp [hx]), h2]⟩

theorem stripTZ_spec (l : Str) :
    digitsVal l * 10 ^ (stripTrailingZeros l).length
        = digitsVal (stripTrailingZeros l) * 10 ^ l.length ∧
    stripTrailingZeros l ≠ [] ∧
    (∀ c ∈ stripTrailingZeros l, c ∈ l ∨ c = '0') := by
  have hdef : stripTrailingZeros l =
      if (l.reverse.dropWhile (fun c => c == '0')).isEmpty then ['0']
      else (l.reverse.dropWhile (fun c => c == '0')).reverse := rfl
  by_cases hre : (l.reverse.dropWhile (fun c => c == '0')).isEmpty
  · have hz : ∀ c ∈ l, c = '0' := by
      intro c hc
      have hall := List.dropWhile_eq_nil_iff.mp (List.isEmpty_iff.mp hre)
      simpa using hall c (List.mem_reverse.mpr hc)
    have hval : digitsVal l = 0 := digitsVal_all_zero hz
    rw [hdef, if_pos hre]
    refine ⟨by simp [hval, digitsVal_one, dv0], by simp, by simp⟩
  · rw [hdef, if_neg hre]
    set tk := l.reverse.takeWhile (fun c => c == '0') with htk
    set r := l.reverse.dropWhile (fun c => c == '0') with hrd
    have hsplit : tk ++ r = l.reverse := List.takeWhile_append_dropWhile (fun c => c == '0') _
    have htk0 : ∀ c ∈ tk, c = '0' := fun c hc => by simpa using List.mem_takeWhile_imp hc
    have hrep : tk = List.replicate tk.length '0' := List.eq_replicate_of_mem htk0
    have hl : l = r.reverse ++ List.replicate tk.length '0' := by
      conv_lhs => rw [← List.reverse_reverse l, ← hsplit]
      rw [List.reverse_append, hrep, List.reverse_replicate, List.length_replicate]
    have hrne : r.reverse ≠ [] := by
      intro hcontra
      apply hre
      rw [List.isEmpty_iff]
      simpa using congrArg List.reverse hcontra
    refine ⟨?_, hrne, ?_⟩
    · conv_lhs => rw [hl]
      rw [digitsVal_append, digitsVal_replicate_zero, hl]
      simp [List.length_append, List.length_replicate]
      ring
    · intro c hc
      left
      rw [hl]
      exact List.mem_append.mpr (Or.inl hc)

/-! ## Parsing back a rendered float -/

theorem getLast?_mem {α : Type} : ∀ {l : List α} {a : α}, l.getLast? = some a → a ∈ l := by
  intro l
  induction l with
  | nil => intro a h; simp at h
  | cons c t ih =>
    intro a h
    cases t with
    | nil => simp at h; simp [h]
    | cons d t' =>
      rw [List.getLast?_cons_cons] at h
      exact List.mem_cons_of_mem c (ih h)

theorem getLast?_append_ne {α : Type} {l l' : List α} (h : l' ≠ []) :
    (l ++ l').getLast? = l'.getLast? := by
  rw [List.getLast?_append]
  cases hx : l'.getLast? with
  | none => exact absurd (List.getLast?_eq_none_iff.mp hx) h
  | some x => rfl

theorem floatDigits_spec (q : ℚ) :
    digitsVal (floatDigits q) = q.num.natAbs * 10 ^ q.den / q.den ∧
    (∀ c ∈ floatDigits q, isDigitC c = true) ∧ q.den + 1 ≤ (floatDigits q).length := by
  obtain ⟨hv, hd, hne⟩ := natToDigits_spec (q.num.natAbs * 10 ^ q.den / q.den)
  simp only [floatDigits]
  split_ifs with h
  · refine ⟨?_, ?_, ?_⟩
    · rw [digitsVal_append, digitsVal_replicate_zero]; simpa using hv
    · intro c hc
      rcases List.mem_append.mp hc with hm | hm
      · rw [List.eq_of_mem_replicate hm]; decide
      · exact hd c hm
    · rw [List.length_append, List.length_replicate]
      have : 1 ≤ (natToDigits (q.num.natAbs * 10 ^ q.den / q.den)).length :=
        List.length_pos.mpr hne
      omega
  · exact ⟨hv, hd, by omega⟩

theorem renderParse (ip fp : Str) (hipne : ip ≠ []) (hfpne : fp ≠ [])
    (hipdig : ∀ c ∈ ip, isDigitC c = true) (hfpdig : ∀ c ∈ fp, isDigitC c = true) :
    pyFloat (ip ++ '.' :: fp)
      = some ((digitsVal ip : ℚ) + (digitsVal fp : ℚ) / (10 : ℚ) ^ fp.length) := by
  obtain ⟨c0, ip', rfl⟩ := List.exists_cons_of_ne_nil hipne
  obtain ⟨f0, fp', rfl⟩ := List.exists_cons_of_ne_nil hfpne
  have hc0 := hipdig c0 (List.mem_cons_self _ _)
  have hstrip : pyStrip ((c0 :: ip') ++ '.' :: f0 :: fp') = (c0 :: ip') ++ '.' :: f0 :: fp' := by
    apply pyStrip_eq_self
    · intro a ha
      rw [List.cons_append] at ha
      simp only [List.head?_cons, Option.some.injEq] at ha
      subst ha
      exact digit_not_space hc0
    · intro a ha
      rw [getLast?_append_ne (by simp), List.getLast?_cons_cons] at ha
      exact digit_not_space (hfpdig a (getLast?_mem ha))
  have htd := takeWhile_append_stop isDigitC (c0 :: ip') hipdig '.' (by decide) (f0 :: fp')
  have htf := takeWhile_all isDigitC (f0 :: fp') hfpdig
  have hhead : ((c0 :: ip') ++ '.' :: f0 :: fp').head? = some c0 := by
    rw [List.cons_append]; rfl
  simp only [pyFloat]
  rw [hstrip, hhead]
  have hcne : ¬ (some c0 = some '-') := by
    simp only [Option.some.injEq]
    exact digit_ne_of_toNat hc0 (by decide)
  have hcne2 : ¬ (some c0 = some '-' ∨ some c0 = some '+') := by
    rintro (h | h) <;> simp only [Option.some.injEq] at h
    · exact digit_ne_of_toNat hc0 (by decide) h
    · exact digit_ne_of_toNat hc0 (by decide) h
  rw [if_neg hcne, if_neg hcne2]
  unfold takeDigits
  rw [htd.1, htd.2]
  simp only [List.head?_cons, Option.some.injEq, if_pos rfl, List.tail_cons]
  rw [htf.1, htf.2]
  rw [if_neg (by simp)]
  simp [one_mul]

theorem floatStr_spec {q : ℚ} (h0 : 0 ≤ q) (hdec : hasDecDen q = true) :
    ∃ ip fp : Str, pyFloatStr q = ip ++ '.' :: fp ∧ ip ≠ [] ∧ fp ≠ [] ∧
      (∀ c ∈ ip, isDigitC c = true) ∧ (∀ c ∈ fp, isDigitC c = true) ∧
      pyFloat (pyFloatStr q) = some q := by
  have hk : 10 ^ q.den % q.den = 0 := by rwa [hasDecDen, beq_iff_eq] at hdec
  have hnotlt : ¬ q < 0 := not_lt.mpr h0
  obtain ⟨hdsval, hdsdig, hdslen⟩ := floatDigits_spec q
  have hrender : pyFloatStr q
      = (floatDigits q).take ((floatDigits q).length - q.den)
        ++ '.' :: stripTrailingZeros ((floatDigits q).drop ((floatDigits q).length - q.den)) := by
    simp only [pyFloatStr]
    rw [if_pos hk, if_neg hnotlt]
    rw [List.nil_append]
  have hiplen : ((floatDigits q).take ((floatDigits q).length - q.den)).length
      = (floatDigits q).length - q.den := by
    rw [List.length_take]; omega
  have hipne : (floatDigits q).take ((floatDigits q).length - q.den) ≠ [] := by
    intro h
    rw [h] at hiplen
    simp at hiplen
    omega
  have hipdig : ∀ c ∈ (floatDigits q).take ((floatDigits q).length - q.den), isDigitC c = true :=
    fun c hc => hdsdig c (List.take_subset _ _ hc)
  have hdfplen : ((floatDigits q).drop ((floatDigits q).length - q.den)).length = q.den := by
    rw [List.length_drop]; omega
  have hdfpdig : ∀ c ∈ (floatDigits q).drop ((floatDigits q).length - q.den), isDigitC c = true :=
    fun c hc => hdsdig c (List.drop_subset _ _ hc)
  obtain ⟨hfpval, hfpne, hfpsub⟩ := stripTZ_spec ((floatDigits q).drop ((floatDigits q).length - q.den))
  have hfpdig : ∀ c ∈ stripTrailingZeros ((floatDigits q).drop ((floatDigits q).length - q.den)),
      isDigitC c = true := by
    intro c hc
    rcases hfpsub c hc with hm | rfl
    · exact hdfpdig c hm
    · decide
  refine ⟨_, _, hrender, hipne, hfpne, hipdig, hfpdig, ?_⟩
  rw [hrender, renderParse _ _ hipne hfpne hipdig hfpdig]
  congr 1
  -- abbreviations for the arithmetic
  rw [hdfplen] at hfpval
  set vip := digitsVal ((floatDigits q).take ((floatDigits q).length - q.den)) with hvip
  set vdfp := digitsVal ((floatDigits q).drop ((floatDigits q).length - q.den)) with hvdfp
  set vfp := digitsVal
    (stripTrailingZeros ((floatDigits q).drop ((floatDigits q).length - q.den))) with hvfp
  set f := (stripTrailingZeros ((floatDigits q).drop ((floatDigits q).length - q.den))).length
    with hfdef
  set n := q.num.natAbs * 10 ^ q.den / q.den with hndef
  have f1 : vip * 10 ^ q.den + vdfp = n := by
    rw [hvip, hvdfp, ← hdsval]
    conv_rhs => rw [← List.take_append_drop ((floatDigits q).length - q.den) (floatDigits q)]
    rw [digitsVal_append, hdfplen]
  have f2 : vdfp * 10 ^ f = vfp * 10 ^ q.den := hfpval
  have f3 : n * q.den = q.num.natAbs * 10 ^ q.den :=
    Nat.div_mul_cancel ((Nat.dvd_of_mod_eq_zero hk).mul_left q.num.natAbs)
  have natfact : (vip * 10 ^ f + vfp) * 10 ^ q.den = n * 10 ^ f := by
    have expand : (vip * 10 ^ f + vfp) * 10 ^ q.den
        = vip * 10 ^ q.den * 10 ^ f + vfp * 10 ^ q.den := by ring
    rw [expand, ← f2, ← f1]
    ring
  have natfact2 : (vip * 10 ^ f + vfp) * q.den = q.num.natAbs * 10 ^ f := by
    have h1 : (vip * 10 ^ f + vfp) * q.den * 10 ^ q.den
        = q.num.natAbs * 10 ^ f * 10 ^ q.den := by
      calc (vip * 10 ^ f + vfp) * q.den * 10 ^ q.den
          = (vip * 10 ^ f + vfp) * 10 ^ q.den * q.den := by ring
        _ = n * 10 ^ f * q.den := by rw [natfact]
        _ = n * q.den * 10 ^ f := by ring
        _ = q.num.natAbs * 10 ^ q.den * 10 ^ f := by rw [f3]
        _ = q.num.natAbs * 10 ^ f * 10 ^ q.den := by ring
    exact Nat.eq_of_mul_eq_mul_right (Nat.pow_pos (by omega)) h1
  have h10f : ((10 : ℚ) ^ f) ≠ 0 := pow_ne_zero _ (by norm_num)
  have hden : ((q.den : ℚ)) ≠ 0 := Nat.cast_ne_zero.mpr (Rat.den_ne_zero q)
  have hnum : ((q.num.natAbs : ℚ)) = (q.num : ℚ) := by
    have hq0 : (0 : ℤ) ≤ q.num := Rat.num_nonneg.mpr h0
    have h1 : ((q.num.natAbs : ℤ) : ℚ) = ((q.num : ℤ) : ℚ) :=
      congrArg (fun z : ℤ => (z : ℚ)) (Int.natAbs_of_nonneg hq0)
    rwa [Int.cast_natCast] at h1
  have step1 : (vip : ℚ) + (vfp : ℚ) / (10 : ℚ) ^ f
      = ((vip * 10 ^ f + vfp : ℕ) : ℚ) / (10 : ℚ) ^ f := by
    rw [eq_div_iff h10f, add_mul, div_mul_cancel₀ _ h10f]
    push_cast
    ring
  rw [step1]
  rw [div_eq_iff h10f]
  have hq : q = (q.num : ℚ) / (q.den : ℚ) := (Rat.num_div_den q).symm
  rw [hq, ← hnum]
  rw [div_mul_eq_mul_div, eq_div_iff hden]
  exact_mod_cast natfact2

/-! ## Safe field values and labelled lines -/

theorem safeValue_dest {v : Str} (h : safeValue v = true) :
    v ≠ [] ∧ (∀ c ∈ v, c ≠ '\n') ∧ hasCS v = false ∧
      (∀ a, v.getLast? = some a → isSpaceC a = false) := by
  unfold safeValue at h
  simp only [Bool.and_eq_true] at h
  obtain ⟨⟨⟨hne, hnl⟩, hcs⟩, hlast⟩ := h
  refine ⟨?_, ?_, ?_, ?_⟩
  · intro hcontra; subst hcontra; simp at hne
  · intro c hc
    have := List.all_eq_true.mp hnl c hc
    simp only [Bool.not_eq_true', Bool.or_eq_false_iff, beq_eq_false_iff_ne] at this
    exact this.1
  · simpa using hcs
  · intro a ha
    rw [ha] at hlast
    simpa using hlast

theorem isPrefixOf_cons_ne {a b : Char} {p l : Str} (h : a ≠ b) :
    (a :: p).isPrefixOf (b :: l) = false := by
  simp [List.isPrefixOf, h]

theorem pyStrip_label_line (c0 : Char) (labRest v : Str) (hc0 : isSpaceC c0 = false)
    (hvne : v ≠ []) (hvlast : ∀ a, v.getLast? = some a → isSpaceC a = false) :
    pyStrip ((c0 :: labRest) ++ v) = (c0 :: labRest) ++ v := by
  apply pyStrip_eq_self
  · intro a ha
    rw [List.cons_append] at ha
    simp only [List.head?_cons, Option.some.injEq] at ha
    subst ha
    exact hc0
  · intro a ha
    rw [getLast?_append_ne hvne] at ha
    exact hvlast a ha

theorem dateLine_facts (v : Str) (hvne : v ≠ []) (hcs : hasCS v = false)
    (hvlast : ∀ a, v.getLast? = some a → isSpaceC a = false) :
    pyStrip (toL "Дата: " ++ v) = toL "Дата: " ++ v ∧
    dateLabel.isPrefixOf (toL "Дата: " ++ v) = true ∧
    lineValue (toL "Дата: " ++ v) = some v := by
  refine ⟨?_, ?_, ?_⟩
  · rw [show toL "Дата: " ++ v = ('Д' :: toL "ата: ") ++ v from rfl]
    exact pyStrip_label_line 'Д' _ v (by decide) hvne hvlast
  · rw [show toL "Дата: " ++ v = dateLabel ++ (' ' :: v) from rfl]
    exact isPrefixOf_append_self _ _
  · rw [show toL "Дата: " ++ v = toL "Дата" ++ ':' :: ' ' :: v from rfl]
    exact lineValue_append _ _ (by decide) hcs

theorem catLine_facts (v : Str) (hvne : v ≠ []) (hcs : hasCS v = false)
    (hvlast : ∀ a, v.getLast? = some a → isSpaceC a = false) :
    pyStrip (toL "Категория: " ++ v) = toL "Категория: " ++ v ∧
    dateLabel.isPrefixOf (toL "Категория: " ++ v) = false ∧
    catLabel.isPrefixOf (toL "Категория: " ++ v) = true ∧
    lineValue (toL "Категория: " ++ v) = some v := by
  refine ⟨?_, ?_, ?_, ?_⟩
  · rw [show toL "Категория: " ++ v = ('К' :: toL "атегория: ") ++ v from rfl]
    exact pyStrip_label_line 'К' _ v (by decide) hvne hvlast
  · rw [show toL "Категория: " ++ v = 'К' :: (toL "атегория: " ++ v) from rfl,
      show dateLabel = 'Д' :: toL "ата:" from rfl]
    exact isPrefixOf_cons_ne (by decide)
  · rw [show toL "Категория: " ++ v = catLabel ++ (' ' :: v) from rfl]
    exact isPrefixOf_append_self _ _
  · rw [show toL "Категория: " ++ v = toL "Категория" ++ ':' :: ' ' :: v from rfl]
    exact lineValue_append _ _ (by decide) hcs

theorem sumLine_facts (v : Str) (hvne : v ≠ []) (hcs : hasCS v = false)
    (hvlast : ∀ a, v.getLast? = some a → isSpaceC a = false) :
    pyStrip (toL "Сумма: " ++ v) = toL "Сумма: " ++ v ∧
    dateLabel.isPrefixOf (toL "Сумма: " ++ v) = false ∧
    catLabel.isPrefixOf (toL "Сумма: " ++ v) = false ∧
    sumLabel.isPrefixOf (toL "Сумма: " ++ v) = true ∧
    lineValue (toL "Сумма: " ++ v) = some v := by
  refine ⟨?_, ?_, ?_, ?_, ?_⟩
  · rw [show toL "Сумма: " ++ v = ('С' :: toL "умма: ") ++ v from rfl]
    exact pyStrip_label_line 'С' _ v (by decide) hvne hvlast
  · rw [show toL "Сумма: " ++ v = 'С' :: (toL "умма: " ++ v) from rfl,
      show dateLabel = 'Д' :: toL "ата:" from rfl]
    exact isPrefixOf_cons_ne (by decide)
  · rw [show toL "Сумма: " ++ v = 'С' :: (toL "умма: " ++ v) from rfl,
      show catLabel = 'К' :: toL "атегория:" from rfl]
    exact isPrefixOf_cons_ne (by decide)
  · rw [show toL "Сумма: " ++ v = sumLabel ++ (' ' :: v) from rfl]
    exact isPrefixOf_append_self _ _
  · rw [show toL "Сумма: " ++ v = toL "Сумма" ++ ':' :: ' ' :: v from rfl]
    exact lineValue_append _ _ (by decide) hcs

theorem descLine_facts (v : Str) (hvne : v ≠ []) (hcs : hasCS v = false)
    (hvlast : ∀ a, v.getLast? = some a → isSpaceC a = false) :
    pyStrip (toL "Описание: " ++ v) = toL "Описание: " ++ v ∧
    dateLabel.isPrefixOf (toL "Описание: " ++ v) = false ∧
    catLabel.isPrefixOf (toL "Описание: " ++ v) = false ∧
    sumLabel.isPrefixOf (toL "Описание: " ++ v) = false ∧
    descLabel.isPrefixOf (toL "Описание: " ++ v) = true ∧
    lineValue (toL "Описание: " ++ v) = some v := by
  refine ⟨?_, ?_, ?_, ?_, ?_, ?_⟩
  · rw [show toL "Описание: " ++ v = ('О' :: toL "писание: ") ++ v from rfl]
    exact pyStrip_label_line 'О' _ v (by decide) hvne hvlast
  · rw [show toL "Описание: " ++ v = 'О' :: (toL "писание: " ++ v) from rfl,
      show dateLabel = 'Д' :: toL "ата:" from rfl]
    exact isPrefixOf_cons_ne (by decide)
  · rw [show toL "Описание: " ++ v = 'О' :: (toL "писание: " ++ v) from rfl,
      show catLabel = 'К' :: toL "атегория:" from rfl]
    exact isPrefixOf_cons_ne (by decide)
  · rw [show toL "Описание: " ++ v = 'О' :: (toL "писание: " ++ v) from rfl,
      show sumLabel = 'С' :: toL "умма:" from rfl]
    exact isPrefixOf_cons_ne (by decide)
  · rw [show toL "Описание: " ++ v = descLabel ++ (' ' :: v) from rfl]
    exact isPrefixOf_append_self _ _
  · rw [show toL "Описание: " ++ v = toL "Описание" ++ ':' :: ' ' :: v from rfl]
    exact lineValue_append _ _ (by decide) hcs

/-! ## Single line steps of the load loop -/

theorem load_step_blank (rest : List Str) (cur : Option Record) (acc : List Record) :
    load_lines ([] :: rest) cur acc = load_lines rest cur acc := by
  simp only [load_lines]
  rw [show pyStrip ([] : Str) = [] from rfl]
  rw [if_neg (by decide), if_neg (by decide), if_neg (by decide), if_neg (by decide)]

theorem load_step_date (v : Str) (hvne : v ≠ []) (hcs : hasCS v = false)
    (hvlast : ∀ a, v.getLast? = some a → isSpaceC a = false) (rest : List Str)
    (cur : Option Record) (acc : List Record) :
    load_lines ((toL "Дата: " ++ v) :: rest) cur acc
      = load_lines rest (some ⟨v, [], 0, []⟩) (acc ++ cur.toList) := by
  obtain ⟨hstrip, hpre, hval⟩ := dateLine_facts v hvne hcs hvlast
  simp only [load_lines]
  rw [hstrip, if_pos hpre, hval]

theorem load_step_cat (v : Str) (hvne : v ≠ []) (hcs : hasCS v = false)
    (hvlast : ∀ a, v.getLast? = some a → isSpaceC a = false) (rest : List Str)
    (r : Record) (acc : List Record) :
    load_lines ((toL "Категория: " ++ v) :: rest) (some r) acc
      = load_lines rest (some { r with category := v }) acc := by
  obtain ⟨hstrip, hnd, hpc, hval⟩ := catLine_facts v hvne hcs hvlast
  simp only [load_lines]
  rw [hstrip, if_neg (by simp [hnd]), if_pos hpc, hval]

theorem load_step_desc (v : Str) (hvne : v ≠ []) (hcs : hasCS v = false)
    (hvlast : ∀ a, v.getLast? = some a → isSpaceC a = false) (rest : List Str)
    (r : Record) (acc : List Record) :
    load_lines ((toL "Описание: " ++ v) :: rest) (some r) acc
      = load_lines rest (some { r with description := v }) acc := by
  obtain ⟨hstrip, hnd, hnc, hns, hpd, hval⟩ := descLine_facts v hvne hcs hvlast
  simp only [load_lines]
  rw [hstrip, if_neg (by simp [hnd]), if_neg (by simp [hnc]), if_neg (by simp [hns]),
    if_pos hpd, hval]

theorem floatStr_safe_parts {q : ℚ} (h0 : 0 ≤ q) (hdec : hasDecDen q = true) :
    pyFloatStr q ≠ [] ∧ hasCS (pyFloatStr q) = false ∧
      (∀ a, (pyFloatStr q).getLast? = some a → isSpaceC a = false) ∧
      (∀ c ∈ pyFloatStr q, c ≠ '\n') := by
  obtain ⟨ip, fp, heq, hipne, hfpne, hipdig, hfpdig, _⟩ := floatStr_spec h0 hdec
  refine ⟨?_, ?_, ?_, ?_⟩
  · rw [heq]
    intro h
    have := congrArg List.length h
    simp at this
  · rw [heq]
    apply hasCS_of_no_colon
    intro c hc
    rcases List.mem_append.mp hc with hm | hm
    · exact digit_ne_of_toNat (hipdig c hm) (by decide)
    · rcases List.mem_cons.mp hm with rfl | hm2
      · decide
      · exact digit_ne_of_toNat (hfpdig c hm2) (by decide)
  · intro a ha
    rw [heq, getLast?_append_ne (by simp)] at ha
    obtain ⟨f0, fp', rfl⟩ := List.exists_cons_of_ne_nil hfpne
    rw [List.getLast?_cons_cons] at ha
    exact digit_not_space (hfpdig a (getLast?_mem ha))
  · intro c hc
    rw [heq] at hc
    rcases List.mem_append.mp hc with hm | hm
    · exact digit_ne_of_toNat (hipdig c hm) (by decide)
    · rcases List.mem_cons.mp hm with rfl | hm2
      · decide
      · exact digit_ne_of_toNat (hfpdig c hm2) (by decide)

theorem load_step_sum (q : ℚ) (h0 : 0 ≤ q) (hdec : hasDecDen q = true) (rest : List Str)
    (r : Record) (acc : List Record) :
    load_lines ((toL "Сумма: " ++ pyFloatStr q) :: rest) (some r) acc
      = load_lines rest (some { r with amount := q }) acc := by
  obtain ⟨hvne, hcs, hvlast, _⟩ := floatStr_safe_parts h0 hdec
  obtain ⟨ip, fp, heq, hipne, hfpne, hipdig, hfpdig, hparse⟩ := floatStr_spec h0 hdec
  obtain ⟨hstrip, hnd, hnc, hps, hval⟩ := sumLine_facts (pyFloatStr q) hvne hcs hvlast
  simp only [load_lines]
  rw [hstrip, if_neg (by simp [hnd]), if_neg (by simp [hnc]), if_pos hps, hval]
  simp only [hparse]

theorem ymdShape_safe {s : Str} (h : ymdShape s = true) :
    s ≠ [] ∧ (∀ c ∈ s, c ≠ '\n') ∧ hasCS s = false ∧
      (∀ a, s.getLast? = some a → isSpaceC a = false) := by
  rcases s with _|⟨c1,_|⟨c2,_|⟨c3,_|⟨c4,_|⟨c5,_|⟨c6,_|⟨c7,_|⟨c8,_|⟨c9,_|⟨c10,_|⟨c11,t⟩⟩⟩⟩⟩⟩⟩⟩⟩⟩⟩
  · simp [ymdShape] at h
  · simp [ymdShape] at h
  · simp [ymdShape] at h
  · simp [ymdShape] at h
  · simp [ymdShape] at h
  · simp [ymdShape] at h
  · simp [ymdShape] at h
  · simp [ymdShape] at h
  · simp [ymdShape] at h
  · simp [ymdShape] at h
  · simp only [ymdShape, Bool.and_eq_true, beq_iff_eq, List.all_cons, List.all_nil,
      Bool.and_true] at h
    obtain ⟨⟨h5, h8⟩, hd1, hd2, hd3, hd4, hd6, hd7, hd9, hd10⟩ := h
    have hdm : ∀ x ∈ [c1, c2, c3, c4, c5, c6, c7, c8, c9, c10], x ≠ '\n' ∧ x ≠ ':' := by
      intro x hx
      simp only [List.mem_cons, List.not_mem_nil, or_false] at hx
      rcases hx with rfl|rfl|rfl|rfl|rfl|rfl|rfl|rfl|rfl|rfl
      · exact ⟨digit_ne_of_toNat hd1 (by decide), digit_ne_of_toNat hd1 (by decide)⟩
      · exact ⟨digit_ne_of_toNat hd2 (by decide), digit_ne_of_toNat hd2 (by decide)⟩
      · exact ⟨digit_ne_of_toNat hd3 (by decide), digit_ne_of_toNat hd3 (by decide)⟩
      · exact ⟨digit_ne_of_toNat hd4 (by decide), digit_ne_of_toNat hd4 (by decide)⟩
      · subst h5; exact ⟨by decide, by decide⟩
      · exact ⟨digit_ne_of_toNat hd6 (by decide), digit_ne_of_toNat hd6 (by decide)⟩
      · exact ⟨digit_ne_of_toNat hd7 (by decide), digit_ne_of_toNat hd7 (by decide)⟩
      · subst h8; exact ⟨by decide, by decide⟩
      · exact ⟨digit_ne_of_toNat hd9 (by decide), digit_ne_of_toNat hd9 (by decide)⟩
      · exact ⟨digit_ne_of_toNat hd10 (by decide), digit_ne_of_toNat hd10 (by decide)⟩
    refine ⟨by simp, fun c hc => (hdm c hc).1, hasCS_of_no_colon _ (fun c hc => (hdm c hc).2), ?_⟩
    intro a ha
    rw [show List.getLast? [c1, c2, c3, c4, c5, c6, c7, c8, c9, c10] = some c10 from rfl] at ha
    simp only [Option.some.injEq] at ha
    subst ha
    exact digit_not_space hd10
  · simp [ymdShape] at h

theorem line_no_nl {lab v : Str} (hlab : ∀ c ∈ lab, c ≠ '\n') (hv : ∀ c ∈ v, c ≠ '\n') :
    ∀ c ∈ lab ++ v, c ≠ '\n' := by
  intro c hc
  rcases List.mem_append.mp hc with h | h
  · exact hlab c h
  · exact hv c h

theorem category_safe {c : Str} (h : c = toL "Доход" ∨ c = toL "Расход") :
    safeValue c = true := by
  rcases h with h | h <;> subst h <;> decide

theorem recordLines_no_nl {r : Record} (hwf : wellFormedRecord r) :
    ∀ l ∈ recordLines r, ∀ c ∈ l, c ≠ '\n' := by
  obtain ⟨hdate, hcat, h0, hdec, hdesc⟩ := hwf
  obtain ⟨_, hdnl, _, _⟩ := ymdShape_safe hdate
  obtain ⟨_, hcnl, _, _⟩ := safeValue_dest (category_safe hcat)
  obtain ⟨_, henl, _, _⟩ := safeValue_dest hdesc
  have hanl := (floatStr_safe_parts h0 hdec).2.2.2
  intro l hl
  simp only [recordLines, List.mem_cons, List.not_mem_nil, or_false] at hl
  rcases hl with rfl | rfl | rfl | rfl | rfl
  · exact line_no_nl (by decide) hdnl
  · exact line_no_nl (by decide) hcnl
  · exact line_no_nl (by decide) hanl
  · exact line_no_nl (by decide) henl
  · intro c hc; simp at hc

theorem splitNL_flatten : ∀ (ls : List Str), (∀ l ∈ ls, ∀ c ∈ l, c ≠ '\n') →
    ∀ (rest : Str),
    splitNL ((ls.map (fun l => l ++ ['\n'])).flatten ++ rest) = ls ++ splitNL rest := by
  intro ls
  induction ls with
  | nil => intro _ rest; simp
  | cons l ls ih =>
    intro h rest
    simp only [List.map_cons, List.flatten_cons, List.append_assoc, List.singleton_append,
      List.cons_append, List.nil_append]
    rw [splitNL_append l (h l (by simp)) _,
      ih (fun l2 hl2 => h l2 (by simp [hl2])) rest]

theorem renderRecords_cons (r : Record) (rs : List Record) :
    renderRecords (r :: rs)
      = ((recordLines r).map (fun l => l ++ ['\n'])).flatten ++ renderRecords rs := by
  simp [renderRecords]

theorem linesOf_render_append (rs : List Record) (h : ∀ r ∈ rs, wellFormedRecord r)
    (rest : Str) :
    splitNL (renderRecords rs ++ rest) = (rs.map recordLines).flatten ++ splitNL rest := by
  induction rs with
  | nil => simp [renderRecords]
  | cons r rs ih =>
    rw [renderRecords_cons, List.append_assoc,
      splitNL_flatten (recordLines r) (recordLines_no_nl (h r (by simp))) _,
      ih (fun r2 hr2 => h r2 (by simp [hr2]))]
    simp [List.append_assoc]

theorem load_block (r : Record) (hwf : wellFormedRecord r) (rest : List Str)
    (cur : Option Record) (acc : List Record) :
    load_lines (recordLines r ++ rest) cur acc
      = load_lines rest (some r) (acc ++ cur.toList) := by
  obtain ⟨hdate, hcat, h0, hdec, hdesc⟩ := hwf
  obtain ⟨hdne, _, hdcs, hdlast⟩ := ymdShape_safe hdate
  obtain ⟨hcne, _, hccs, hclast⟩ := safeValue_dest (category_safe hcat)
  obtain ⟨hene, _, hecs, helast⟩ := safeValue_dest hdesc
  rcases r with ⟨d, c, a, de⟩
  show load_lines ((toL "Дата: " ++ d) :: (toL "Категория: " ++ c)
      :: (toL "Сумма: " ++ pyFloatStr a) :: (toL "Описание: " ++ de) :: [] :: rest) cur acc = _
  rw [load_step_date d hdne hdcs hdlast, load_step_cat c hcne hccs hclast,
    load_step_sum a h0 hdec, load_step_desc de hene hecs helast, load_step_blank]

theorem load_blocks : ∀ (rs : List Record), (∀ r ∈ rs, wellFormedRecord r) →
    ∀ (r0 : Record) (rest : List Str) (acc : List Record),
    load_lines ((rs.map recordLines).flatten ++ rest) (some r0) acc
      = load_lines rest (some (lastRec r0 rs)) (acc ++ initRecs r0 rs) := by
  intro rs
  induction rs with
  | nil => intro _ r0 rest acc; simp [lastRec, initRecs]
  | cons r rs ih =>
    intro h r0 rest acc
    simp only [List.map_cons, List.flatten_cons, List.append_assoc]
    rw [load_block r (h r (by simp)) _ (some r0) acc,
      ih (fun r2 hr2 => h r2 (by simp [hr2])) r _ _]
    simp [lastRec, initRecs, Option.toList, List.append_assoc]

theorem initRecs_lastRec : ∀ (rs : List Record) (r0 : Record),
    initRecs r0 rs ++ [lastRec r0 rs] = r0 :: rs := by
  intro rs
  induction rs with
  | nil => intro r0; rfl
  | cons r rs ih => intro r0; simp only [initRecs, lastRec, List.cons_append, ih]

theorem load_render (rs : List Record) (h : ∀ r ∈ rs, wellFormedRecord r) :
    load_data (renderRecords rs) = (rs, none) := by
  cases rs with
  | nil => rfl
  | cons r rs =>
    show load_lines (linesOf (renderRecords (r :: rs))) none [] = (r :: rs, none)
    unfold linesOf
    rw [show renderRecords (r :: rs) = renderRecords (r :: rs) ++ [] from
        (List.append_nil _).symm,
      linesOf_render_append (r :: rs) h []]
    simp only [List.map_cons, List.flatten_cons, List.append_assoc]
    rw [load_block r (h r (by simp)) _ none [],
      load_blocks rs (fun r2 hr2 => h r2 (by simp [hr2])) r _ _]
    rw [show splitNL ([] : Str) = ([[]] : List Str) from rfl, load_step_blank]
    simp only [load_lines, Option.toList_some, Option.toList_none, List.nil_append,
      List.append_nil]
    rw [initRecs_lastRec]

set_option maxRecDepth 100000 in
/-- C1: counterexample.  A record whose description contains a further
`": "` (here `"a: b"`) does not survive the `save_data`/`load_data` round
trip: the loaded description is the truncated `"a"`, because
`line.split(': ')[1]` keeps only the segment between the first and second
separator.  So the round trip fails for some non-empty lists of records
whose fields are well formed in the spec's sense (valid date, sentinel
category, non-negative amount, free-form description). -/
theorem claim_C1_counterexample :
    (initTracker (save_data ⟨[⟨toL "2024-01-01", toL "Доход", 50,
        toL "a: b"⟩], none⟩).dataFile).1.records
      ≠ [⟨toL "2024-01-01", toL "Доход", 50, toL "a: b"⟩] ∧
    (initTracker (save_data ⟨[⟨toL "2024-01-01", toL "Доход", 50,
        toL "a: b"⟩], none⟩).dataFile).1.records
      = [⟨toL "2024-01-01", toL "Доход", 50, toL "a"⟩] ∧
    (initTracker (save_data ⟨[⟨toL "2024-01-01", toL "Доход", 50,
        toL "a: b"⟩], none⟩).dataFile).2 = none := by
  with_unfolding_all decide

/-- C1 (amended): the `save_data`/`load_data` round trip is exact for
every list of well-formed records, where well-formed additionally requires
the description to be non-empty, free of `": "`, free of newlines and not
end in whitespace (`safeValue`); the reloaded tracker has the same records
in the same order and no error is raised. -/
theorem claim_C1_roundtrip_amended (t : Tracker) (_hne : t.records ≠ [])
    (h : ∀ r ∈ t.records, wellFormedRecord r) :
    initTracker (save_data t).dataFile
      = ({ records := t.records, dataFile := (save_data t).dataFile }, none) := by
  simp only [initTracker, save_data, load_file, load_render t.records h]

/-- Witness for the amended C1 round trip at a concrete one-record
tracker. -/
theorem claim_C1_roundtrip_amended_witness :
    initTracker (save_data ⟨[⟨toL "2024-01-01", toL "Доход", 50, toL "x"⟩], none⟩).dataFile
      = ({ records := [⟨toL "2024-01-01", toL "Доход", 50, toL "x"⟩],
           dataFile := (save_data ⟨[⟨toL "2024-01-01", toL "Доход", 50, toL "x"⟩],
             none⟩).dataFile }, none) :=
  claim_C1_roundtrip_amended _ (by decide) (by
    intro r hr
    simp only [List.mem_cons, List.not_mem_nil, or_false] at hr
    subst hr
    refine ⟨by decide, Or.inl rfl, ?_, ?_, by decide⟩
    · with_unfolding_all decide
    · with_unfolding_all decide)

theorem load_step_sum_bad (v : Str) (hvne : v ≠ []) (hcs : hasCS v = false)
    (hvlast : ∀ a, v.getLast? = some a → isSpaceC a = false) (hvf : pyFloat v = none)
    (rest : List Str) (cur : Option Record) (acc : List Record) :
    load_lines ((toL "Сумма: " ++ v) :: rest) cur acc = (acc, some LoadErr.valueErr) := by
  obtain ⟨hstrip, hnd, hnc, hps, hval⟩ := sumLine_facts v hvne hcs hvlast
  simp only [load_lines]
  rw [hstrip, if_neg (by simp [hnd]), if_neg (by simp [hnc]), if_pos hps, hval]
  simp only [hvf]

/-- C10: `load_data` is not atomic on a parse failure.  If a malformed
amount line occurs in a block after earlier complete well-formed blocks,
the records of those earlier blocks have all been appended to the records
list and remain there when the `ValueError` propagates; only the block
being parsed at the point of failure is lost. -/
theorem claim_C10_partial_load (rs : List Record) (hne : rs ≠ [])
    (h : ∀ r ∈ rs, wellFormedRecord r) (d v : Str)
    (hd : safeValue d = true) (hv : safeValue v = true)
    (hvf : pyFloat v = none) (tail : Str) :
    load_data (renderRecords rs
        ++ ((toL "Дата: " ++ d) ++ ('\n' :: ((toL "Сумма: " ++ v) ++ ('\n' :: tail)))))
      = (rs, some LoadErr.valueErr) := by
  obtain ⟨hdne, hdnl, hdcs, hdlast⟩ := safeValue_dest hd
  obtain ⟨hvne, hvnl, hvcs, hvlast⟩ := safeValue_dest hv
  unfold load_data linesOf
  rw [linesOf_render_append rs h _,
    splitNL_append (toL "Дата: " ++ d) (line_no_nl (by decide) hdnl) _,
    splitNL_append (toL "Сумма: " ++ v) (line_no_nl (by decide) hvnl) _]
  rcases rs with _ | ⟨r, rs⟩
  · exact absurd rfl hne
  · simp only [List.map_cons, List.flatten_cons, List.append_assoc]
    rw [load_block r (h r (by simp)) _ none [],
      load_blocks rs (fun r2 hr2 => h r2 (by simp [hr2])) r _ _,
      load_step_date d hdne hdcs hdlast,
      load_step_sum_bad v hvne hvcs hvlast hvf]
    simp only [Option.toList_none, Option.toList_some, List.nil_append, List.append_nil]
    rw [initRecs_lastRec]

/-- Witness for C10: one good block, then a block whose amount is the
unparseable `"abc"`. -/
theorem claim_C10_partial_load_witness :
    load_data (renderRecords [⟨toL "2024-01-01", toL "Доход", 50, toL "x"⟩]
        ++ ((toL "Дата: " ++ toL "2024-02-02")
          ++ ('\n' :: ((toL "Сумма: " ++ toL "abc") ++ ('\n' :: toL "")))))
      = ([⟨toL "2024-01-01", toL "Доход", 50, toL "x"⟩], some LoadErr.valueErr) :=
  claim_C10_partial_load [⟨toL "2024-01-01", toL "Доход", 50, toL "x"⟩] (by decide)
    (by
      intro r hr
      simp only [List.mem_cons, List.not_mem_nil, or_false] at hr
      subst hr
      refine ⟨by decide, Or.inl rfl, ?_, ?_, by decide⟩
      · with_unfolding_all decide
      · with_unfolding_all decide)
    (toL "2024-02-02") (toL "abc") (by decide) (by decide)
    (by with_unfolding_all decide) (toL "")

theorem load_lines_sum_error : ∀ (ls1 : List Str) (l : Str) (ls2 : List Str) (v : Str),
    sumLabel.isPrefixOf (pyStrip l) = true → lineValue (pyStrip l) = some v →
    pyFloat v = none → ∀ (cur : Option Record) (acc : List Record),
    (load_lines (ls1 ++ l :: ls2) cur acc).2.isSome = true := by
  intro ls1
  induction ls1 with
  | nil =>
    intro l ls2 v hpre hval hvf cur acc
    obtain ⟨t, ht⟩ := (isPrefixOf_iff sumLabel (pyStrip l)).mp hpre
    have hnd : dateLabel.isPrefixOf (pyStrip l) = false := by
      rw [ht, show sumLabel ++ t = 'С' :: (toL "умма:" ++ t) from rfl,
        show dateLabel = 'Д' :: toL "ата:" from rfl]
      exact isPrefixOf_cons_ne (by decide)
    have hnc : catLabel.isPrefixOf (pyStrip l) = false := by
      rw [ht, show sumLabel ++ t = 'С' :: (toL "умма:" ++ t) from rfl,
        show catLabel = 'К' :: toL "атегория:" from rfl]
      exact isPrefixOf_cons_ne (by decide)
    simp only [List.nil_append, load_lines]
    rw [if_neg (by simp [hnd]), if_neg (by simp [hnc]), if_pos hpre, hval]
    simp only [hvf]
    rfl
  | cons a ls1 ih =>
    intro l ls2 v hpre hval hvf cur acc
    simp only [List.cons_append, load_lines]
    split_ifs with h1 h2 h3 h4
    · cases hlv : lineValue (pyStrip a) with
      | none => simp [hlv]
      | some w =>
        simp only [hlv]
        exact ih l ls2 v hpre hval hvf _ _
    · cases hlv : lineValue (pyStrip a) with
      | none => simp [hlv]
      | some w =>
        cases cur with
        | none => simp [hlv]
        | some r =>
          simp only [hlv]
          exact ih l ls2 v hpre hval hvf _ _
    · cases hlv : lineValue (pyStrip a) with
      | none => simp [hlv]
      | some w =>
        cases hpf : pyFloat w with
        | none => simp [hlv, hpf]
        | some x =>
          cases cur with
          | none => simp [hlv, hpf]
          | some r =>
            simp only [hlv, hpf]
            exact ih l ls2 v hpre hval hvf _ _
    · cases hlv : lineValue (pyStrip a) with
      | none => simp [hlv]
      | some w =>
        cases cur with
        | none => simp [hlv]
        | some r =>
          simp only [hlv]
          exact ih l ls2 v hpre hval hvf _ _
    · exact ih l ls2 v hpre hval hvf _ _

/-- C5: if any line of the file content strips to a `"Сумма:"`-prefixed
line whose `split(': ')[1]` value does not parse as a float, the whole
load fails: `load_data` propagates an exception (its error component is
`some`), with no silent skip of the record and no default amount. -/
theorem claim_C5_malformed_amount (content : Str) (ls1 ls2 : List Str) (l v : Str)
    (hsplit : linesOf content = ls1 ++ l :: ls2)
    (hpre : sumLabel.isPrefixOf (pyStrip l) = true)
    (hval : lineValue (pyStrip l) = some v)
    (hvf : pyFloat v = none) :
    (load_data content).2.isSome = true := by
  unfold load_data
  rw [hsplit]
  exact load_lines_sum_error ls1 l ls2 v hpre hval hvf none []

/-- Witness for C5 at the content `"Сумма: abc\n"`. -/
theorem claim_C5_malformed_amount_witness :
    (load_data (toL "Сумма: abc\n")).2.isSome = true :=
  claim_C5_malformed_amount (toL "Сумма: abc\n") [] [[]] (toL "Сумма: abc") (toL "abc")
    (by decide) (by decide) (by decide) (by with_unfolding_all decide)

/-- C3: counterexample.  For the line `"Описание: a: b"` the loaded
description is `"a"`, not the full remainder `"a: b"` after the first
separator: `line.split(': ')` splits on every occurrence and `[1]` keeps
only the segment between the first and the second one. -/
theorem claim_C3_counterexample :
    (load_data (toL "Дата: 2024-01-01\nОписание: a: b\n")).1.map Record.description
        = [toL "a"] ∧
    (load_data (toL "Дата: 2024-01-01\nОписание: a: b\n")).1.map Record.description
        ≠ [toL "a: b"] := by
  with_unfolding_all decide

/-- C3 (amended): a load line is split on every occurrence of `": "` and
the value assigned is element 1 of the split — the segment between the
first and the second separator.  It equals the entire remainder after the
first separator exactly when no further `": "` occurs in the value. -/
theorem claim_C3_split_on_all (lab v1 v2 : Str) (hlab : hasCS lab = false)
    (hv1 : hasCS v1 = false) :
    lineValue (lab ++ ':' :: ' ' :: v1) = some v1 ∧
    lineValue (lab ++ ':' :: ' ' :: (v1 ++ ':' :: ' ' :: v2)) = some v1 :=
  ⟨lineValue_append lab v1 hlab hv1, lineValue_append_two lab v1 v2 hlab hv1⟩

/-- Witness for C3 on the label `"Описание"` with value parts `"a"` and
`"b"`. -/
theorem claim_C3_split_on_all_witness :
    lineValue (toL "Описание" ++ ':' :: ' ' :: toL "a") = some (toL "a") ∧
    lineValue (toL "Описание" ++ ':' :: ' ' :: (toL "a" ++ ':' :: ' ' :: toL "b"))
      = some (toL "a") :=
  claim_C3_split_on_all (toL "Описание") (toL "a") (toL "b") (by decide) (by decide)
